import Mathlib

/-!
# Verification of the AiResearcher outline/generation core

A shallow embedding, in Lean 4, of the outline parser, the Markdown
exporter, the retry/backoff controller and the section-content generator
of the AiResearcher repository, together with theorems settling the
frozen claims about them.

Text is modelled as `String` (a wrapper around `List Char`); all string
primitives used by the embedding (`split('\n')`, `trim()`,
`toLowerCase()`, the regular-expression matches) are implemented here as
executable functions over `List Char`, mirroring the JavaScript
semantics used by the source.
-/

namespace AiResearcher

/-! ## Basic text primitives (models of the JS string operations) -/

/-- Model of JavaScript `String.prototype.split('\n')` on the character
list of a string: `""` splits to `[[]]`, `"a\nb"` to `[a, b]`. -/
def splitNl : List Char → List (List Char)
  | [] => [[]]
  | c :: rest =>
    if c = '\n' then [] :: splitNl rest
    else
      match splitNl rest with
      | [] => [[c]]
      | l :: ls => (c :: l) :: ls

/-- Model of JavaScript `String.prototype.trim()`: drop leading and
trailing whitespace characters. -/
def trimChars (cs : List Char) : List Char :=
  ((cs.dropWhile Char.isWhitespace).reverse.dropWhile Char.isWhitespace).reverse

/-- `trim()` lifted to `String`. -/
def strTrim (s : String) : String :=
  String.mk (trimChars s.data)

/-- Model of JavaScript `String.prototype.toLowerCase()` (ASCII case). -/
def strToLower (s : String) : String :=
  String.mk (s.data.map Char.toLower)

/-! ## The outline line matchers

`ResearchPage.tsx` (`handleOutlineGeneration`) classifies each trimmed
line of the generated outline with two regular expressions:

* main section:  `/^(\d+)\.\s+(.+?)(?:\s*\[|$)/`
* subsection:    `/^(\d+\.\d+)\s+(.+?)(?:\s*\[|$)/`

The functions below implement those matches (with JavaScript's leftmost,
greedy-with-backtracking semantics, worked out by hand for these
particular patterns) as executable functions. -/

/-- Does the lazy title group `(.+?)` stop here?  The remainder after the
captured title must match `(?:\s*\[|$)`: either the line ends, or after
optional whitespace a `[` follows. -/
def titleStopOk (t : List Char) : Bool :=
  t.isEmpty || ((t.dropWhile Char.isWhitespace).head? == some '[')

/-- The capture of the lazy group `(.+?)` when followed by `(?:\s*\[|$)`:
the shortest non-empty prefix whose remainder satisfies `titleStopOk`.
Returns `none` when the input is empty (the group needs one character). -/
def titleSplit : List Char → Option (List Char)
  | [] => none
  | c :: cs => if titleStopOk cs then some [c] else (titleSplit cs).map (fun p => c :: p)

/-- Matches `\s+(.+?)(?:\s*\[|$)`, returning the capture of the group.
The `\s+` is greedy; when everything after it is whitespace the engine
backtracks, leaving a single whitespace character for the title group. -/
def matchTitleAfterWs (r : List Char) : Option (List Char) :=
  let ws := r.takeWhile Char.isWhitespace
  let rest := r.dropWhile Char.isWhitespace
  if ws.isEmpty then none
  else
    match titleSplit rest with
    | some t => some t
    | none => if 2 ≤ ws.length then some [ws.getLastD ' '] else none

/-- `line.match(/^(\d+)\.\s+(.+?)(?:\s*\[|$)/)`: on success returns the
pair (captured number, captured raw title): one or more digits, a
literal dot, then whitespace and the title group. -/
def mainSectionMatch (line : String) : Option (String × String) :=
  let ds := line.data.takeWhile Char.isDigit
  let r1 := line.data.dropWhile Char.isDigit
  if ds.isEmpty then none
  else if r1.head? = some '.' then
    (matchTitleAfterWs r1.tail).map (fun t => (String.mk ds, String.mk t))
  else none

/-- `line.match(/^(\d+\.\d+)\s+(.+?)(?:\s*\[|$)/)`: on success returns
the pair (captured dotted number, captured raw title): digits, a literal
dot, more digits, then whitespace and the title group. -/
def subSectionMatch (line : String) : Option (String × String) :=
  let ds := line.data.takeWhile Char.isDigit
  let r1 := line.data.dropWhile Char.isDigit
  if ds.isEmpty then none
  else if r1.head? = some '.' then
    let es := r1.tail.takeWhile Char.isDigit
    if es.isEmpty then none
    else
      (matchTitleAfterWs (r1.tail.dropWhile Char.isDigit)).map
        (fun t => (String.mk (ds ++ '.' :: es), String.mk t))
  else none

/-! ## The outline parser of `ResearchPage.tsx` -/

/-- A subsection node: `{ number, title, content }`.  The parser never
gives a subsection children, so the tree is at most two levels deep. -/
structure Subsection where
  number : String
  title : String
  content : String
  deriving DecidableEq, Repr

/-- A section node of the outline tree:
`{ number, title, content, subsections }`. -/
structure ResearchSection where
  number : String
  title : String
  content : String
  subsections : List Subsection
  deriving DecidableEq, Repr

/-- `lines[i + 1].startsWith('[')`. -/
def startsWithBracket (l : String) : Bool :=
  l.data.head? == some '['

/-- `lines[i + 1].slice(1, -1).trim()`: the description text taken from a
bracketed line. -/
def descOf (l : String) : String :=
  String.mk (trimChars ((l.data.drop 1).dropLast))

/-- The look-ahead step of the parser: when the next line starts with
`[`, consume it as the description of the node just opened. -/
def takeDesc : List String → String × List String
  | [] => ("", [])
  | l :: rest => if startsWithBracket l then (descOf l, rest) else ("", l :: rest)

/-- The flush of the currently open main section, as a list. -/
def flushCur : Option ResearchSection → List ResearchSection
  | none => []
  | some c => [c]

/-- The line loop of `handleOutlineGeneration` (ResearchPage.tsx,
lines 117-170), with an explicit step budget `fuel` (the loop of the
source runs the index `i` up to `lines.length`, and each iteration
consumes one or — with a description look-ahead — two lines; `fuel`
bounds the remaining iterations, and `parseLoop` below supplies
`lines.length`, which always suffices).  State: `cur` is the currently
open main section.  A main-section line flushes the open section and
opens a new one; a subsection line appends a subsection to the open
main section (and is dropped when no main section is open); a
node-opening line consumes an immediately following `[...]` line as its
description (`takeDesc`); any other line is skipped; the still-open
section is flushed after the loop (the "final flush"). -/
def parseLoopAux : ℕ → List String → Option ResearchSection → List ResearchSection
  | 0, _, cur => flushCur cur
  | fuel + 1, lines, cur =>
    match lines with
    | [] => flushCur cur
    | l :: rest =>
      match mainSectionMatch l with
      | some (num, t) =>
        flushCur cur ++
          parseLoopAux fuel (takeDesc rest).2 (some ⟨num, strTrim t, (takeDesc rest).1, []⟩)
      | none =>
        match subSectionMatch l, cur with
        | some (num, t), some c =>
          parseLoopAux fuel (takeDesc rest).2
            (some { c with subsections := c.subsections ++ [⟨num, strTrim t, (takeDesc rest).1⟩] })
        | _, _ => parseLoopAux fuel rest cur

/-- The parser loop run with a sufficient budget. -/
def parseLoop (lines : List String) (cur : Option ResearchSection) : List ResearchSection :=
  parseLoopAux lines.length lines cur

/-- `outlineText.split('\n').map(line => line.trim()).filter(line => line)`. -/
def linesOf (text : String) : List String :=
  ((splitNl text.data).map (fun cs => String.mk (trimChars cs))).filter (fun s => s ≠ "")

/-- The outline parser of `ResearchPage.tsx`: trimmed non-empty lines fed
through `parseLoop` with no section open. -/
def parseOutlineSections (text : String) : List ResearchSection :=
  parseLoop (linesOf text) none

/-- Flattening a section tree in document order to its
`(number, title)` pairs (the claims' notion of flattening). -/
def flattenPairs (ss : List ResearchSection) : List (String × String) :=
  ss.flatMap (fun s => (s.number, s.title) :: s.subsections.map (fun sub => (sub.number, sub.title)))

/-- The `(number, title)` pair of one outline line, as the parser's own
matchers extract it: the main-section match is tried first, then the
subsection match, and the raw title capture is trimmed. -/
def lineToPair (l : String) : Option (String × String) :=
  match mainSectionMatch l with
  | some (n, t) => some (n, strTrim t)
  | none =>
    match subSectionMatch l with
    | some (n, t) => some (n, strTrim t)
    | none => none

/-! ## Declarative block description of the parser (for refinement)

`parseBlocks` is a *specification-level* restatement of the outline
contract: each main-section line opens one top-level section, whose
subsections are exactly the subsection lines occurring before the next
main-section line, each node taking an immediately following `[...]`
line as its description.  The refinement theorem below proves the
`ResearchPage.tsx` state machine equal to it. -/

/-- Specification: the subsections harvested from a run of lines that
contains no main-section line. -/
def specSubs : List String → List Subsection
  | [] => []
  | l :: rest =>
    match subSectionMatch l with
    | some (n, t) => ⟨n, strTrim t, (takeDesc rest).1⟩ :: specSubs (takeDesc rest).2
    | none => specSubs rest
  termination_by lines => lines.length
  decreasing_by
    · refine Nat.lt_succ_of_le ?_
      cases rest with
      | nil => simp [takeDesc]
      | cons l2 rest2 => by_cases h : startsWithBracket l2 = true <;> simp [takeDesc, h]
    · exact Nat.lt_succ_self rest.length

/-- Specification: the outline as blocks.  A line that opens no main
section is dropped; a main-section line yields one top-level section
carrying the subsection lines up to the next main-section line. -/
def parseBlocks : List String → List ResearchSection
  | [] => []
  | l :: rest =>
    match mainSectionMatch l with
    | some (n, t) =>
      let desc := (takeDesc rest).1
      let rest₁ := (takeDesc rest).2
      ⟨n, strTrim t, desc, specSubs (rest₁.takeWhile (fun x => (mainSectionMatch x).isNone))⟩ ::
        parseBlocks (rest₁.dropWhile (fun x => (mainSectionMatch x).isNone))
    | none => parseBlocks rest
  termination_by lines => lines.length
  decreasing_by
    · refine Nat.lt_succ_of_le (le_trans (List.dropWhile_sublist _).length_le ?_)
      cases rest with
      | nil => simp [takeDesc]
      | cons l2 rest2 => by_cases h : startsWithBracket l2 = true <;> simp [takeDesc, h]
    · exact Nat.lt_succ_self rest.length

/-- The block description extended to a parse state with an open main
section `c`: the leading subsection lines (those up to the first
main-section line) are appended to `c`'s subsections, and the remaining
lines parse as blocks. -/
def blocksWithOpen (lines : List String) : Option ResearchSection → List ResearchSection
  | none => parseBlocks lines
  | some c =>
    { c with subsections := c.subsections ++
        specSubs (lines.takeWhile (fun x => (mainSectionMatch x).isNone)) } ::
      parseBlocks (lines.dropWhile (fun x => (mainSectionMatch x).isNone))

/-! ## The flat outline parser of `researchService.ts` -/

/-- A section of the flat parser: `{ number, title, content }` (this
parser never nests). -/
structure FlatSection where
  number : String
  title : String
  content : String
  deriving DecidableEq, Repr

/-- `line.match(/^(\d+\.?(?:\d+)?)\s*(.*)/)` (researchService.ts,
line 55): any line starting with digits is a header; the number keeps an
optional dot and further digits; the rest of the line (after optional
whitespace) is the raw title capture. -/
def flatNumberMatch (line : String) : Option (String × String) :=
  let cs := line.data
  let ds := cs.takeWhile Char.isDigit
  if ds.isEmpty then none
  else
    match cs.dropWhile Char.isDigit with
    | '.' :: r2 =>
      some (String.mk (ds ++ '.' :: r2.takeWhile Char.isDigit),
        String.mk ((r2.dropWhile Char.isDigit).dropWhile Char.isWhitespace))
    | r1 => some (String.mk ds, String.mk (r1.dropWhile Char.isWhitespace))

/-- The loop of `parseOutline` (researchService.ts, lines 53-73): every
header line flushes the open section and opens a new one; other lines
are appended to the open section's content, newline-separated; the last
open section is flushed after the loop. -/
def parseOutlineFlatLoop : List String → Option FlatSection → List FlatSection
  | [], none => []
  | [], some c => [c]
  | l :: rest, cur =>
    match flatNumberMatch l with
    | some (num, t) =>
      match cur with
      | some c => c :: parseOutlineFlatLoop rest (some ⟨num, strTrim t, ""⟩)
      | none => parseOutlineFlatLoop rest (some ⟨num, strTrim t, ""⟩)
    | none =>
      match cur with
      | some c =>
        parseOutlineFlatLoop rest
          (some { c with content := c.content ++ (if c.content = "" then "" else "\n") ++ strTrim l })
      | none => parseOutlineFlatLoop rest none

/-- `outline.split('\n').filter(line => line.trim())` (researchService.ts,
line 49): lines are kept un-trimmed, filtered on trimmed truthiness. -/
def linesOfFlat (text : String) : List String :=
  ((splitNl text.data).map String.mk).filter (fun s => strTrim s ≠ "")

/-- `parseOutline` of researchService.ts (lines 48-76). -/
def parseOutline (outline : String) : List FlatSection :=
  parseOutlineFlatLoop (linesOfFlat outline) none

/-- `createResearchOutline` (researchService.ts, lines 18-45), with the
backend's outline text abstracted as the `outline` argument: the section
cap is 30 when `mode.toLowerCase() === 'advanced'`, otherwise 10, and
the parsed sections are truncated to the cap with `slice(0, cap)`. -/
def createResearchOutline (outline : String) (mode : String) : List FlatSection :=
  let sectionCount := if strToLower mode = "advanced" then 30 else 10
  (parseOutline outline).take sectionCount

/-! ## The Markdown exporter (`utils/download.ts`) -/

/-- The Markdown fragment for one subsection:
```### ${subsection.number} ${subsection.title}\n${subsection.content || ''}\n\n``` -/
def subsectionMd (sub : Subsection) : String :=
  "### " ++ sub.number ++ " " ++ sub.title ++ "\n" ++ sub.content ++ "\n\n"

/-- The Markdown fragment for one section:
``## ${section.number}. ${section.title}\n`` then the content (or a bare
newline when empty), then the subsection fragments joined with `''`. -/
def sectionMd (s : ResearchSection) : String :=
  "## " ++ s.number ++ ". " ++ s.title ++ "\n" ++
    (if s.content = "" then "\n" else s.content ++ "\n\n") ++
    String.join (s.subsections.map subsectionMd)

/-- `downloadMarkdown`'s document text (download.ts, lines 4-16): the
title fragment and the section fragments joined with `'\n'`. -/
def downloadMarkdownContent (title : String) (sections : List ResearchSection) : String :=
  String.join (List.intersperse "\n" (("# " ++ title ++ "\n\n") :: sections.map sectionMd))

/-- Strip the Markdown heading markers this exporter writes: a
`### `-prefixed line yields its suffix, else a `## `-prefixed line
yields its suffix, anything else is discarded. -/
def stripHeading (l : List Char) : Option String :=
  if l.take 4 = ['#', '#', '#', ' '] then some (String.mk (l.drop 4))
  else if l.take 3 = ['#', '#', ' '] then some (String.mk (l.drop 3))
  else none

/-- The heading lines of a Markdown document, with their markers
stripped. -/
def headingLines (md : String) : List String :=
  (splitNl md.data).filterMap stripHeading

/-- Re-parse a Markdown export's headings with the outline parser. -/
def reparseHeadings (md : String) : List ResearchSection :=
  parseLoop (headingLines md) none

/-- A title as the parser itself would have produced it: non-empty, free
of `[` and newlines, and already trimmed (no whitespace at either
end). -/
def TitleOk (t : String) : Prop :=
  t.data ≠ [] ∧ '[' ∉ t.data ∧ '\n' ∉ t.data ∧
    (∀ c, t.data.head? = some c → c.isWhitespace = false) ∧
    (∀ c, t.data.getLast? = some c → c.isWhitespace = false)

/-- A main-section number as the parser produces it: a non-empty digit
string. -/
def NumOk (n : String) : Prop :=
  n.data ≠ [] ∧ ∀ c ∈ n.data, c.isDigit = true

/-- A subsection number as the parser produces it: two non-empty digit
strings joined by a period. -/
def SubNumOk (n : String) : Prop :=
  ∃ ds es, n.data = ds ++ '.' :: es ∧ ds ≠ [] ∧ es ≠ [] ∧
    (∀ c ∈ ds, c.isDigit = true) ∧ (∀ c ∈ es, c.isDigit = true)

/-- Body text that contains no line that reads as a Markdown heading of
the exporter's two forms. -/
def ContentOk (c : String) : Prop :=
  ∀ l ∈ splitNl c.data, stripHeading l = none

/-- A section tree node whose numbers and titles are of the shapes the
outline parser itself produces, with heading-free body text. -/
def SectionOk (s : ResearchSection) : Prop :=
  NumOk s.number ∧ TitleOk s.title ∧ ContentOk s.content ∧
    ∀ sub ∈ s.subsections, SubNumOk sub.number ∧ TitleOk sub.title ∧ ContentOk sub.content

/-- The heading lines the Markdown exporter writes for one section, with
their `## ` / `### ` markers already stripped. -/
def secHeadLines (s : ResearchSection) : List String :=
  String.mk (s.number.data ++ '.' :: ' ' :: s.title.data) ::
    s.subsections.map (fun sub => String.mk (sub.number.data ++ ' ' :: sub.title.data))

/-! ## Rate-limit hint parsing (`services/api.ts`, lines 27-39)

`parseRateLimitError` reads `error.error.message` and matches it against
`/Please try again in (\d+\.?\d*)s/`; on success the wait is
`Math.ceil(parseFloat(match[1]) * 1000)` milliseconds, otherwise the
fixed fallback `5000`.  The decimal capture is an exact decimal numeral,
modelled here with exact integer arithmetic
(`ceil((D + E/10^k) * 1000)`), idealising JavaScript's binary floating
point to exact decimal evaluation. -/

/-- The thrown backend error, as the retry code reads it: the nested
`error.error` object's optional `code` and `message` fields. -/
structure GroqError where
  code : Option String
  message : Option String
  deriving DecidableEq, Repr

/-- The numeral value of a string of decimal digits. -/
def natOfDigits (ds : List Char) : ℕ :=
  ds.foldl (fun n c => n * 10 + (c.toNat - '0'.toNat)) 0

/-- Ceiling division on naturals: `⌈a / b⌉`. -/
def natCeilDiv (a b : ℕ) : ℕ :=
  (a + b - 1) / b

/-- The literal part of the pattern `/Please try again in (\d+\.?\d*)s/`. -/
def retryHintLit : List Char :=
  "Please try again in ".data

/-- Matching `(\d+\.?\d*)s` at the current position: one or more digits,
then optionally a dot and more digits, then a literal `s`; returns the
integer digits and the fractional digits of the capture. -/
def parseNumTail (cs : List Char) : Option (List Char × List Char) :=
  let ds := cs.takeWhile Char.isDigit
  if ds.isEmpty then none
  else
    match cs.dropWhile Char.isDigit with
    | '.' :: r2 =>
      match r2.dropWhile Char.isDigit with
      | 's' :: _ => some (ds, r2.takeWhile Char.isDigit)
      | _ => none
    | 's' :: _ => some (ds, [])
    | _ => none

/-- The leftmost match of `/Please try again in (\d+\.?\d*)s/` in a
message, as `(integer digits, fractional digits)` of the capture. -/
def findRetryHint : List Char → Option (List Char × List Char)
  | [] => none
  | c :: rest =>
    match (if retryHintLit.isPrefixOf (c :: rest) then parseNumTail ((c :: rest).drop retryHintLit.length) else none) with
    | some r => some r
    | none => findRetryHint rest

/-- The wait, in milliseconds, computed from a captured decimal numeral:
`ceil((D + E / 10^k) * 1000)` with `D` the integer digits, `E` the `k`
fractional digits. -/
def hintWaitMs (ds es : List Char) : ℕ :=
  natCeilDiv ((natOfDigits ds * 10 ^ es.length + natOfDigits es) * 1000) (10 ^ es.length)

/-- The characters of a decimal numeral with integer digits `ds` and an
optional fractional part. -/
def numeralChars (ds : List Char) : Option (List Char) → List Char
  | some es => ds ++ '.' :: es
  | none => ds

/-- The exact rational value of a captured decimal numeral
`D.E` (integer digits `ds`, fractional digits `es`). -/
def decimalVal (ds es : List Char) : ℚ :=
  natOfDigits ds + natOfDigits es / 10 ^ es.length

/-- `parseRateLimitError` (api.ts, lines 27-39). -/
def parseRateLimitError (e : GroqError) : ℕ :=
  match e.message with
  | some m =>
    match findRetryHint m.data with
    | some (ds, es) => hintWaitMs ds es
    | none => 5000
  | none => 5000

/-! ## The retry controller (`services/api.ts`, lines 41-70)

`withRetry` runs the operation; on failure it rethrows once
`retryCount >= maxRetries`, else waits (the rate-limit hint wait for a
`rate_limit_exceeded` error, exponential backoff capped at 700000 ms
otherwise) and recurses with `retryCount + 1`.  The model takes the
operation as an oracle from attempt number to outcome, and returns the
result together with the number of invocations made and the list of
waits performed, so the claims about call counts and backoff can be
stated. -/

/-- The wait chosen before retry number `retryCount + 1` (api.ts,
lines 56-65): the parsed rate-limit wait for a `rate_limit_exceeded`
error, else `min(initialDelay * 2 ** retryCount, 700000)`. -/
def retryWaitTime (e : GroqError) (retryCount initialDelay : ℕ) : ℕ :=
  if e.code = some "rate_limit_exceeded" then parseRateLimitError e
  else min (initialDelay * 2 ^ retryCount) 700000

/-- The recursion of `withRetry`, driven by the remaining retry budget
`fuel = maxRetries - retryCount` (the recursion of the source is on the
growing `retryCount`, bounded by the `retryCount >= maxRetries` rethrow;
`fuel` is that same bound counted downwards).  `op k` is the outcome of
invocation number `k`; the result is paired with the number of
invocations performed and the waits taken between them. -/
def withRetryAux (op : ℕ → Except GroqError α) (initialDelay : ℕ) :
    (retryCount : ℕ) → (fuel : ℕ) → Except GroqError α × ℕ × List ℕ
  | retryCount, 0 =>
    match op retryCount with
    | .ok a => (.ok a, 1, [])
    | .error e => (.error e, 1, [])
  | retryCount, fuel + 1 =>
    match op retryCount with
    | .ok a => (.ok a, 1, [])
    | .error e =>
      let r := withRetryAux op initialDelay (retryCount + 1) fuel
      (r.1, r.2.1 + 1, retryWaitTime e retryCount initialDelay :: r.2.2)

/-- `withRetry` (api.ts, lines 41-70), instrumented: result, number of
invocations, and the waits between them.  Defaults in the source:
`retryCount = 0`, `maxRetries = 8`, `initialDelay = 1000`. -/
def withRetryRun (op : ℕ → Except GroqError α) (retryCount maxRetries initialDelay : ℕ) :
    Except GroqError α × ℕ × List ℕ :=
  withRetryAux op initialDelay retryCount (maxRetries - retryCount)

/-! ## The bulk generator's request spacing (`authService.ts`, lines 696-811)

`generateSectionBatch` wraps its whole request loop in
`withRetry(op, 0, 12, 15000)` — the `withRetry` of authService.ts
(lines 261-288), whose exponential backoff is capped at 30000 ms.  The
loop iterates the sections with `batchSize = 1`, keeping a **local**
`lastRequestTime` initialised to `0` on every pass.  Before each
request it waits until 15000 ms have passed since `lastRequestTime`,
sets `lastRequestTime` to the current time and performs the request —
a failure is rethrown by the loop's catch, aborting the pass — and
after each non-final section waits a further fixed 15000 ms.  On a
failed pass with retries left the wrapper waits (the parsed rate-limit
hint for a `rate_limit_exceeded` error, else
`min(initialDelay * 2 ** retryCount, 30000)`) and re-runs the loop from
the start.  The model threads a virtual clock and records the start
time of every request made, failed requests included. -/

/-- One pass of the request loop (the callback handed to `withRetry`),
driven by `remaining = n - i`, the number of sections not yet processed
(the source's `for` loop runs `i` up to `n`; `remaining` is that same
bound counted downwards, and `i + 1 < n` — "a further section
follows" — is `1 < remaining`).  `outcome i` is the error thrown by the
request for section `i` in this pass (`none` = success) and `dur i` its
duration; the result is the request start times, the clock when the
pass ends, and the error the pass rethrew, if any. -/
def sectionBatchPass (outcome : ℕ → Option GroqError) (dur : ℕ → ℕ) :
    (remaining i now last : ℕ) → List ℕ × ℕ × Option GroqError
  | 0, _, now, _ => ([], now, none)
  | remaining + 1, i, now, last =>
    let since := now - last
    let start := if since < 15000 then now + (15000 - since) else now
    let afterCall := start + dur i
    match outcome i with
    | some e => ([start], afterCall, some e)
    | none =>
      let afterDelay := if 0 < remaining then afterCall + 15000 else afterCall
      let r := sectionBatchPass outcome dur remaining (i + 1) afterDelay start
      (start :: r.1, r.2)

/-- The wait authService's `withRetry` (lines 261-288) takes before
retry number `retryCount + 1`: the parsed rate-limit hint for a
`rate_limit_exceeded` error, else
`min(initialDelay * 2 ** retryCount, 30000)`. -/
def authRetryWaitTime (e : GroqError) (retryCount initialDelay : ℕ) : ℕ :=
  if e.code = some "rate_limit_exceeded" then parseRateLimitError e
  else min (initialDelay * 2 ^ retryCount) 30000

/-- The retry wrapper around the pass, driven by
`fuel = maxRetries - retryCount` counted downwards (at `fuel = 0` the
pass still runs once and its error is rethrown — the source's
`retryCount >= maxRetries` branch).  `outcome rc i` / `dur rc i`
describe pass `rc`'s request for section `i`; the trace concatenates
every pass's request start times, and each re-run starts with
`lastRequestTime = 0` again. -/
def batchRetryAux (outcome : ℕ → ℕ → Option GroqError) (dur : ℕ → ℕ → ℕ)
    (n initialDelay : ℕ) : (retryCount fuel now : ℕ) → List ℕ × ℕ × Option GroqError
  | retryCount, 0, now => sectionBatchPass (outcome retryCount) (dur retryCount) n 0 now 0
  | retryCount, fuel + 1, now =>
    let p := sectionBatchPass (outcome retryCount) (dur retryCount) n 0 now 0
    match p.2.2 with
    | none => p
    | some e =>
      let r := batchRetryAux outcome dur n initialDelay (retryCount + 1) fuel
        (p.2.1 + authRetryWaitTime e retryCount initialDelay)
      (p.1 ++ r.1, r.2)

/-- One full invocation of `generateSectionBatch` over `n` sections,
started at clock value `startNow`: `withRetry(loop, 0, 12, 15000)`. -/
def generateSectionBatchRun (outcome : ℕ → ℕ → Option GroqError) (dur : ℕ → ℕ → ℕ)
    (n startNow : ℕ) : List ℕ × ℕ × Option GroqError :=
  batchRetryAux outcome dur n 15000 0 12 startNow

/-! ## The document generator (`ResearchPage.tsx`, lines 192-309)

`handleDocumentGeneration` walks the sections; for each it retries a
try-block up to `maxRetries = 8` attempts.  One attempt generates the
main content (throwing when the response is missing or empty), assigns
it, then — when the section has subsections — generates the subsection
contents (throwing when the response array is empty) and assigns them
index-wise with `subsectionContent[idx]?.content || subsection.content
|| ''`.  On exhausting the 8 attempts it records one failure for that
section and moves on; sections are never reordered and the outer catch
is unreachable.  The backend is abstracted by two oracles indexed by
section index and attempt number. -/

/-- Index-wise subsection content update:
`subsectionContent[idx]?.content || subsection.content || ''`. -/
def updateSubs : List Subsection → List String → List Subsection
  | [], _ => []
  | sub :: rest, [] => sub :: updateSubs rest []
  | sub :: rest, c :: cs =>
    { sub with content := if c = "" then sub.content else c } :: updateSubs rest cs

/-- One attempt of the per-section try-block.  Returns the (possibly
partially) updated section and whether the attempt succeeded; a main
response that is missing or empty throws before any assignment, a
failing subsection response throws after the main content was already
assigned. -/
def attemptSection (mainGen : ℕ → ℕ → Option String) (subGen : ℕ → ℕ → Option (List String))
    (i a : ℕ) (sec : ResearchSection) : ResearchSection × Bool :=
  match mainGen i a with
  | none => (sec, false)
  | some mc =>
    if mc = "" then (sec, false)
    else
      let sec₁ := { sec with content := mc }
      if sec.subsections.isEmpty then (sec₁, true)
      else
        match subGen i a with
        | none => (sec₁, false)
        | some scs =>
          if scs.isEmpty then (sec₁, false)
          else ({ sec₁ with subsections := updateSubs sec.subsections scs }, true)

/-- The `while (!sectionSuccess && retryCount < maxRetries)` loop for
one section, with `fuel` the remaining attempts and `a` the current
attempt number. -/
def sectionRetryLoop (mainGen : ℕ → ℕ → Option String) (subGen : ℕ → ℕ → Option (List String))
    (i : ℕ) (sec : ResearchSection) (a : ℕ) : ℕ → ResearchSection × Bool
  | 0 => (sec, false)
  | fuel + 1 =>
    match attemptSection mainGen subGen i a sec with
    | (sec', true) => (sec', true)
    | (sec', false) => sectionRetryLoop mainGen subGen i sec' (a + 1) fuel

/-- `handleDocumentGeneration`'s section loop: returns the updated
sections (in input order) and the indices for which a final failure was
recorded. -/
def handleDocumentGeneration (mainGen : ℕ → ℕ → Option String)
    (subGen : ℕ → ℕ → Option (List String)) :
    List ResearchSection → ℕ → List ResearchSection × List ℕ
  | [], _ => ([], [])
  | sec :: rest, i =>
    let r := sectionRetryLoop mainGen subGen i sec 0 8
    let rec' := handleDocumentGeneration mainGen subGen rest (i + 1)
    (r.1 :: rec'.1, if r.2 then rec'.2 else i :: rec'.2)

/-! ## General helper lemmas -/

theorem takeWhile_append_eq {p : Char → Bool} {xs : List Char} (y : Char) (rest : List Char)
    (hx : ∀ c ∈ xs, p c = true) (hy : p y = false) :
    (xs ++ y :: rest).takeWhile p = xs ∧ (xs ++ y :: rest).dropWhile p = y :: rest := by
  induction xs with
  | nil => simp [List.takeWhile_cons, List.dropWhile_cons, hy]
  | cons a as ih =>
    have ha := hx a (by simp)
    have h := ih (fun c hc => hx c (by simp [hc]))
    simp [List.takeWhile_cons, List.dropWhile_cons, ha, h.1, h.2]

theorem isPrefixOf_append_self (xs ys : List Char) : xs.isPrefixOf (xs ++ ys) = true := by
  induction xs with
  | nil => simp [List.isPrefixOf]
  | cons a as ih => simp [List.isPrefixOf, ih]

/-! ## C10: the section cap of `createResearchOutline` -/

/-- **C10.** For every outline text and mode, `createResearchOutline`
returns at most 30 top-level sections when the mode is (case-
insensitively) `advanced` and at most 10 otherwise, and its result is
exactly the parsed section list truncated to that cap (sections beyond
the cap are silently dropped from the end). -/
theorem createResearchOutline_section_cap (outline mode : String) :
    (createResearchOutline outline mode).length ≤
        (if strToLower mode = "advanced" then 30 else 10) ∧
    createResearchOutline outline mode =
        (parseOutline outline).take (if strToLower mode = "advanced" then 30 else 10) ∧
    createResearchOutline outline mode <+: parseOutline outline := by
  refine ⟨?_, rfl, ?_⟩
  · by_cases h : strToLower mode = "advanced" <;>
      simp [createResearchOutline, h, List.length_take]
  · by_cases h : strToLower mode = "advanced" <;>
      simp [createResearchOutline, h, List.take_prefix]

/-! ## C4: the rate-limit hint wait -/

/-- **C4, counterexample.**  The claim reads every message containing
"try again in 7.5s" as carrying a 7.5-second hint; but the code's
pattern requires the full literal "Please try again in ", so the message
`"try again in 7.5s"` parses to the 5000 ms fallback, not 7500 ms. -/
theorem parseRateLimitError_unprefixed_hint :
    parseRateLimitError ⟨some "rate_limit_exceeded", some "try again in 7.5s"⟩ = 5000 ∧
    (5000 : ℕ) ≠ 7500 := by
  exact ⟨by decide, by decide⟩

theorem findRetryHint_cons (c : Char) (rest : List Char) :
    findRetryHint (c :: rest) =
      match (if retryHintLit.isPrefixOf (c :: rest) then
          parseNumTail ((c :: rest).drop retryHintLit.length) else none) with
      | some r => some r
      | none => findRetryHint rest := rfl

theorem findRetryHint_of_match (cs : List Char) (r : List Char × List Char)
    (hne : cs ≠ [])
    (hpre : retryHintLit.isPrefixOf cs = true)
    (hr : parseNumTail (cs.drop retryHintLit.length) = some r) :
    findRetryHint cs = some r := by
  cases cs with
  | nil => exact absurd rfl hne
  | cons c rest => rw [findRetryHint_cons]; simp [hpre, hr]

theorem findRetryHint_skip (c : Char) (rest : List Char)
    (h : retryHintLit.isPrefixOf (c :: rest) = false) :
    findRetryHint (c :: rest) = findRetryHint rest := by
  rw [findRetryHint_cons]; simp [h]

theorem findRetryHint_prepend (pre tail : List Char)
    (h : ∀ k, k < pre.length → retryHintLit.isPrefixOf ((pre ++ tail).drop k) = false) :
    findRetryHint (pre ++ tail) = findRetryHint tail := by
  induction pre with
  | nil => rfl
  | cons c pre' ih =>
    have h0 := h 0 (by simp)
    simp only [List.drop_zero] at h0
    rw [List.cons_append] at h0 ⊢
    rw [findRetryHint_skip _ _ h0]
    exact ih (fun k hk => by
      have hk1 := h (k + 1) (by simpa using Nat.succ_lt_succ hk)
      simpa using hk1)

theorem parseNumTail_frac (D E post : List Char) (hD : D ≠ [])
    (hDd : ∀ c ∈ D, c.isDigit = true) (hEd : ∀ c ∈ E, c.isDigit = true) :
    parseNumTail (D ++ '.' :: (E ++ 's' :: post)) = some (D, E) := by
  have h1 := takeWhile_append_eq (p := Char.isDigit) '.' (E ++ 's' :: post) hDd (by decide)
  have h2 := takeWhile_append_eq (p := Char.isDigit) 's' post hEd (by decide)
  rw [parseNumTail]
  simp only [h1.1, h1.2, h2.1, h2.2]
  simp [hD]

theorem parseNumTail_int (D post : List Char) (hD : D ≠ [])
    (hDd : ∀ c ∈ D, c.isDigit = true) :
    parseNumTail (D ++ 's' :: post) = some (D, []) := by
  have h1 := takeWhile_append_eq (p := Char.isDigit) 's' post hDd (by decide)
  rw [parseNumTail]
  simp only [h1.1, h1.2]
  simp [hD]

theorem natCeilDiv_cast (a b : ℕ) (hb : 0 < b) :
    (natCeilDiv a b : ℤ) = ⌈(a : ℚ) / (b : ℚ)⌉ := by
  have hbQ : (0 : ℚ) < (b : ℚ) := by exact_mod_cast hb
  have hdm : b * ((a + b - 1) / b) + (a + b - 1) % b = a + b - 1 := Nat.div_add_mod _ _
  have hmlt : (a + b - 1) % b < b := Nat.mod_lt _ hb
  have hq : natCeilDiv a b = (a + b - 1) / b := rfl
  have hdmZ : (b : ℤ) * ((natCeilDiv a b : ℕ) : ℤ) + (((a + b - 1) % b : ℕ) : ℤ)
      = (a : ℤ) + (b : ℤ) - 1 := by
    rw [hq]
    omega
  have hmltZ : (((a + b - 1) % b : ℕ) : ℤ) < (b : ℤ) := by exact_mod_cast hmlt
  symm
  rw [Int.ceil_eq_iff]
  constructor
  · rcases Nat.eq_zero_or_pos a with ha | ha
    · subst ha
      have h0 : natCeilDiv 0 b = 0 := Nat.div_eq_of_lt (by omega)
      rw [h0]
      norm_num
    · rw [show ((natCeilDiv a b : ℤ) : ℚ) - 1 = (((natCeilDiv a b : ℤ) - 1 : ℤ) : ℚ) by push_cast; ring]
      rw [lt_div_iff₀ hbQ]
      have haZ : (1 : ℤ) ≤ (a : ℤ) := by exact_mod_cast ha
      have hZ : ((natCeilDiv a b : ℤ) - 1) * (b : ℤ) < (a : ℤ) := by nlinarith [hdmZ, hmltZ, haZ]
      calc (((natCeilDiv a b : ℤ) - 1 : ℤ) : ℚ) * (b : ℚ)
          = ((((natCeilDiv a b : ℤ) - 1) * (b : ℤ) : ℤ) : ℚ) := by push_cast; ring
        _ < ((a : ℤ) : ℚ) := by exact_mod_cast hZ
        _ = (a : ℚ) := by push_cast; ring
  · rw [div_le_iff₀ hbQ]
    have hZ : (a : ℤ) ≤ ((natCeilDiv a b : ℕ) : ℤ) * (b : ℤ) := by nlinarith [hdmZ, hmltZ]
    calc (a : ℚ) = ((a : ℤ) : ℚ) := by push_cast; ring
      _ ≤ ((((natCeilDiv a b : ℕ) : ℤ) * (b : ℤ) : ℤ) : ℚ) := by exact_mod_cast hZ
      _ = ((natCeilDiv a b : ℤ) : ℚ) * (b : ℚ) := by push_cast; ring

theorem hintWaitMs_eq_ceil (ds es : List Char) :
    (hintWaitMs ds es : ℤ) = ⌈decimalVal ds es * 1000⌉ := by
  have h10 : (0 : ℕ) < 10 ^ es.length := pow_pos (by norm_num) _
  rw [hintWaitMs, natCeilDiv_cast _ _ h10]
  congr 1
  rw [decimalVal]
  have h10Q : ((10 : ℚ)) ^ es.length ≠ 0 := by positivity
  push_cast
  field_simp

/-- **C4 (amended).**  For every throttling error whose message contains
the code's documented hint pattern — the literal `"Please try again in "`
followed by a decimal numeral and `s` — the computed wait is exactly
`⌈N * 1000⌉` milliseconds for the numeral's exact value `N`; for every
message in which that pattern does not occur (including messages that
contain only the shorter text `"try again in N s"`), and for a missing
message, the wait is the fixed 5000 ms fallback. -/
theorem parseRateLimitError_hint_wait (code : Option String) (pre post D : List Char)
    (fr : Option (List Char))
    (hD : D ≠ []) (hDd : ∀ c ∈ D, c.isDigit = true)
    (hfr : ∀ E, fr = some E → ∀ c ∈ E, c.isDigit = true)
    (hpre : ∀ k, k < pre.length →
      retryHintLit.isPrefixOf
        ((pre ++ (retryHintLit ++ (numeralChars D fr ++ 's' :: post))).drop k) = false) :
    (parseRateLimitError
        ⟨code, some (String.mk (pre ++ (retryHintLit ++ (numeralChars D fr ++ 's' :: post))))⟩ : ℤ) =
      ⌈decimalVal D (fr.getD []) * 1000⌉ ∧
    (∀ m : String, findRetryHint m.data = none →
      parseRateLimitError ⟨code, some m⟩ = 5000) ∧
    parseRateLimitError ⟨code, none⟩ = 5000 := by
  refine ⟨?_, ?_, rfl⟩
  · have hnum : parseNumTail (numeralChars D fr ++ 's' :: post) = some (D, fr.getD []) := by
      cases fr with
      | none => simpa [numeralChars] using parseNumTail_int D post hD hDd
      | some E =>
        have := parseNumTail_frac D E post hD hDd (hfr E rfl)
        simpa [numeralChars, List.append_assoc] using this
    have hfind : findRetryHint (pre ++ (retryHintLit ++ (numeralChars D fr ++ 's' :: post)))
        = some (D, fr.getD []) := by
      rw [findRetryHint_prepend pre _ hpre]
      refine findRetryHint_of_match _ _ (by simp [retryHintLit]) ?_ ?_
      · exact isPrefixOf_append_self _ _
      · rw [List.drop_left]; exact hnum
    have : parseRateLimitError
        ⟨code, some (String.mk (pre ++ (retryHintLit ++ (numeralChars D fr ++ 's' :: post))))⟩
        = hintWaitMs D (fr.getD []) := by
      simp [parseRateLimitError, hfind]
    rw [this, hintWaitMs_eq_ceil]
  · intro m hm
    simp [parseRateLimitError, hm]

/-- Witness for C4: the concrete message
`"Rate limit reached. Please try again in 7.5s. Bye"` computes the wait
7500 ms, by the amended theorem applied at that input. -/
theorem parseRateLimitError_hint_wait_witness :
    parseRateLimitError
      ⟨some "rate_limit_exceeded",
        some (String.mk ("Rate limit reached. ".data ++
          (retryHintLit ++ (numeralChars ['7'] (some ['5']) ++ 's' :: ". Bye".data))))⟩ = 7500 := by
  have h := (parseRateLimitError_hint_wait (some "rate_limit_exceeded")
      "Rate limit reached. ".data ". Bye".data ['7'] (some ['5'])
      (by decide) (by decide)
      (by intro E hE; cases hE; decide)
      (by decide)).1
  have hc : ⌈decimalVal ['7'] ((some ['5']).getD []) * 1000⌉ = (7500 : ℤ) := by
    have h7 : natOfDigits ['7'] = 7 := by decide
    have h5 : natOfDigits ['5'] = 5 := by decide
    rw [show (some ['5']).getD [] = ['5'] from rfl]
    rw [decimalVal, h7, h5]
    norm_num
  rw [hc] at h
  exact_mod_cast h

/-! ## C5 and C7: the retry controller -/

theorem withRetryAux_spec (op : ℕ → Except GroqError α) (d : ℕ) (fuel : ℕ) :
    ∀ rc : ℕ,
      (withRetryAux op d rc fuel).2.1 ≤ fuel + 1 ∧
      (∀ a, (withRetryAux op d rc fuel).1 = .ok a →
        ∃ k, rc ≤ k ∧ k ≤ rc + fuel ∧ op k = .ok a ∧
          ∀ j, rc ≤ j → j < k → ∃ e, op j = .error e) ∧
      (∀ e, (withRetryAux op d rc fuel).1 = .error e →
        op (rc + fuel) = .error e ∧ ∀ j, rc ≤ j → j ≤ rc + fuel → ∃ e', op j = .error e') := by
  induction fuel with
  | zero =>
    intro rc
    cases hop : op rc with
    | ok a =>
      refine ⟨by simp [withRetryAux, hop], ?_, ?_⟩
      · intro a' ha'
        simp [withRetryAux, hop] at ha'
        exact ⟨rc, le_rfl, by omega, by rw [hop, ha'], fun j h1 h2 => absurd h2 (by omega)⟩
      · intro e he
        simp [withRetryAux, hop] at he
    | error e =>
      refine ⟨by simp [withRetryAux, hop], ?_, ?_⟩
      · intro a' ha'
        simp [withRetryAux, hop] at ha'
      · intro e' he'
        simp [withRetryAux, hop] at he'
        subst he'
        exact ⟨by simpa using hop, fun j h1 h2 => ⟨e, by rw [show j = rc by omega]; exact hop⟩⟩
  | succ fuel ih =>
    intro rc
    cases hop : op rc with
    | ok a =>
      refine ⟨by simp [withRetryAux, hop], ?_, ?_⟩
      · intro a' ha'
        simp [withRetryAux, hop] at ha'
        exact ⟨rc, le_rfl, by omega, by rw [hop, ha'], fun j h1 h2 => absurd h2 (by omega)⟩
      · intro e he
        simp [withRetryAux, hop] at he
    | error e =>
      have hrec := ih (rc + 1)
      refine ⟨?_, ?_, ?_⟩
      · have := hrec.1
        simp only [withRetryAux, hop]
        omega
      · intro a' ha'
        simp only [withRetryAux, hop] at ha'
        obtain ⟨k, hk1, hk2, hk3, hk4⟩ := hrec.2.1 a' ha'
        refine ⟨k, by omega, by omega, hk3, ?_⟩
        intro j h1 h2
        rcases Nat.eq_or_lt_of_le h1 with rfl | h1'
        · exact ⟨e, hop⟩
        · exact hk4 j (by omega) h2
      · intro e' he'
        simp only [withRetryAux, hop] at he'
        obtain ⟨h1, h2⟩ := hrec.2.2 e' he'
        refine ⟨by rw [show rc + (fuel + 1) = rc + 1 + fuel by omega]; exact h1, ?_⟩
        intro j hj1 hj2
        rcases Nat.eq_or_lt_of_le hj1 with rfl | hj1'
        · exact ⟨e, hop⟩
        · exact h2 j (by omega) (by omega)

/-- **C7.** For every operation and every pattern of failures, `withRetry`
(with the source's default budget `maxRetries = 8`, i.e. one initial
attempt plus at most 8 retries) invokes the operation at most
`maxRetries + 1` times and terminates, returning the first successful
result — everything before it failed — or, when every attempt up to
attempt `maxRetries` failed, propagating that final attempt's error (the
only way a `RateLimitError`/`TransientError` escapes the loop). -/
theorem withRetry_bounded_attempts (op : ℕ → Except GroqError α) (m d : ℕ) :
    (withRetryRun op 0 m d).2.1 ≤ m + 1 ∧
    (∀ a, (withRetryRun op 0 m d).1 = .ok a →
      ∃ k, k ≤ m ∧ op k = .ok a ∧ ∀ j, j < k → ∃ e, op j = .error e) ∧
    (∀ e, (withRetryRun op 0 m d).1 = .error e →
      op m = .error e ∧ ∀ j, j ≤ m → ∃ e', op j = .error e') := by
  have h := withRetryAux_spec op d (m - 0) 0
  rw [withRetryRun]
  refine ⟨by simpa using h.1, ?_, ?_⟩
  · intro a ha
    obtain ⟨k, _, hk2, hk3, hk4⟩ := h.2.1 a ha
    exact ⟨k, by omega, hk3, fun j hj => hk4 j (by omega) hj⟩
  · intro e he
    obtain ⟨h1, h2⟩ := h.2.2 e he
    exact ⟨by simpa using h1, fun j hj => h2 j (by omega) (by omega)⟩

/-- Witness for C7: an operation that fails on attempts 0-2 and succeeds
on attempt 3, run with the default budget of 8 retries, makes at most 9
invocations (it makes 4) and returns the success. -/
theorem withRetry_bounded_attempts_witness :
    (withRetryRun (fun k => if k < 3 then .error ⟨none, some "boom"⟩ else .ok 42) 0 8 1000).2.1 ≤ 9 ∧
    (withRetryRun (fun k => if k < 3 then .error ⟨none, some "boom"⟩ else .ok 42) 0 8 1000).2.1 = 4 ∧
    (withRetryRun (fun k => if k < 3 then .error ⟨none, some "boom"⟩ else .ok 42) 0 8 1000).1 = .ok 42 := by
  refine ⟨(withRetry_bounded_attempts _ 8 1000).1, by decide, by rfl⟩

theorem withRetryAux_waits (op : ℕ → Except GroqError α) (d : ℕ)
    (hnr : ∀ k e, op k = .error e → e.code ≠ some "rate_limit_exceeded") (fuel : ℕ) :
    ∀ rc : ℕ, ∃ len, (withRetryAux op d rc fuel).2.2
      = (List.range' rc len).map (fun k => min (d * 2 ^ k) 700000) := by
  induction fuel with
  | zero =>
    intro rc
    cases hop : op rc with
    | ok a => exact ⟨0, by simp [withRetryAux, hop]⟩
    | error e => exact ⟨0, by simp [withRetryAux, hop]⟩
  | succ fuel ih =>
    intro rc
    cases hop : op rc with
    | ok a => exact ⟨0, by simp [withRetryAux, hop]⟩
    | error e =>
      obtain ⟨len, hlen⟩ := ih (rc + 1)
      refine ⟨len + 1, ?_⟩
      have hw : retryWaitTime e rc d = min (d * 2 ^ rc) 700000 := by
        rw [retryWaitTime, if_neg]
        intro hc
        exact hnr rc e hop hc
      simp only [withRetryAux, hop, List.range'_succ, List.map_cons]
      rw [hlen, hw]

theorem backoff_range_chain (d s len : ℕ) :
    List.Chain' (· ≤ ·) ((List.range' s len).map (fun k => min (d * 2 ^ k) 700000)) := by
  induction len generalizing s with
  | zero => simp
  | succ len ih =>
    rw [List.range'_succ, List.map_cons]
    rcases len with _ | len'
    · simp
    · rw [List.range'_succ, List.map_cons]
      refine List.Chain'.cons ?_ ?_
      · refine min_le_min (Nat.mul_le_mul_left d ?_) le_rfl
        exact Nat.pow_le_pow_right (by norm_num) (by omega)
      · have := ih (s + 1)
        rw [List.range'_succ, List.map_cons] at this
        exact this

/-- **C5.** When every failure of the operation is a non-rate-limit
(transient) one, the waits computed on successive retries are exactly
`min(initialDelay * 2 ^ attempt, 700000)` for attempts `0, 1, 2, …`
(the cap chosen by api.ts is 700000 ms); consequently they are
monotonically non-decreasing in the attempt number and never exceed the
cap. -/
theorem withRetry_backoff_monotone_capped (op : ℕ → Except GroqError α) (m d : ℕ)
    (hnr : ∀ k e, op k = .error e → e.code ≠ some "rate_limit_exceeded") :
    (∃ len, (withRetryRun op 0 m d).2.2
        = (List.range' 0 len).map (fun k => min (d * 2 ^ k) 700000)) ∧
    List.Chain' (· ≤ ·) (withRetryRun op 0 m d).2.2 ∧
    ∀ w ∈ (withRetryRun op 0 m d).2.2, w ≤ 700000 := by
  obtain ⟨len, hlen⟩ := withRetryAux_waits op d hnr (m - 0) 0
  rw [withRetryRun]
  refine ⟨⟨len, hlen⟩, ?_, ?_⟩
  · rw [hlen]; exact backoff_range_chain d 0 len
  · intro w hw
    rw [hlen] at hw
    obtain ⟨k, _, rfl⟩ := List.mem_map.1 hw
    exact min_le_right _ _

/-- Witness for C5: an always-failing transient operation with
`maxRetries = 2`, `initialDelay = 1000` produces exactly the waits
`[1000, 2000] = [min(1000·2⁰, 700000), min(1000·2¹, 700000)]`, a
non-decreasing list bounded by the cap. -/
theorem withRetry_backoff_monotone_capped_witness :
    (withRetryRun (fun _ => (.error ⟨none, some "boom"⟩ : Except GroqError ℕ)) 0 2 1000).2.2
        = [1000, 2000] ∧
    List.Chain' (· ≤ ·)
      (withRetryRun (fun _ => (.error ⟨none, some "boom"⟩ : Except GroqError ℕ)) 0 2 1000).2.2 := by
  refine ⟨by decide, ?_⟩
  refine (withRetry_backoff_monotone_capped _ 2 1000 ?_).2.1
  intro k e he
  injection he with h1
  rw [← h1]
  intro hc
  simp at hc

/-! ## C3: request spacing of the bulk generator -/

theorem sectionBatchPass_spacing (outcome : ℕ → Option GroqError) (dur : ℕ → ℕ)
    (remaining : ℕ) :
    ∀ i now last : ℕ,
      (∀ t ∈ (sectionBatchPass outcome dur remaining i now last).1, now ≤ t) ∧
      List.Chain' (fun a b => a + 15000 ≤ b)
        (sectionBatchPass outcome dur remaining i now last).1 := by
  induction remaining with
  | zero => intro i now last; simp [sectionBatchPass]
  | succ remaining ih =>
    intro i now last
    cases ho : outcome i with
    | some e =>
      simp only [sectionBatchPass, ho]
      constructor
      · intro t ht
        simp only [List.mem_singleton] at ht
        subst ht
        split <;> omega
      · simp
    | none =>
      simp only [sectionBatchPass, ho]
      set since := now - last with hsince
      set start := if since < 15000 then now + (15000 - since) else now with hstart
      set afterCall := start + dur i with hafterCall
      set afterDelay := if 0 < remaining then afterCall + 15000 else afterCall with hafterDelay
      have hnow_start : now ≤ start := by
        rw [hstart]; split <;> omega
      have hrec := ih (i + 1) afterDelay start
      constructor
      · intro t ht
        rcases List.mem_cons.1 ht with rfl | ht'
        · exact hnow_start
        · have h1 := hrec.1 t ht'
          have h2 : start ≤ afterDelay := by
            rw [hafterDelay, hafterCall]; split <;> omega
          omega
      · rw [List.chain'_cons']
        refine ⟨?_, hrec.2⟩
        intro b hb
        have hmem : b ∈ (sectionBatchPass outcome dur remaining (i + 1) afterDelay start).1 :=
          List.mem_of_mem_head? hb
        have h1 := hrec.1 b hmem
        have hne : (sectionBatchPass outcome dur remaining (i + 1) afterDelay start).1 ≠ [] := by
          intro hemp
          rw [hemp] at hb
          simp at hb
        have hrem : 0 < remaining := by
          by_contra h0
          have : remaining = 0 := by omega
          subst this
          simp [sectionBatchPass] at hne
        have : afterCall + 15000 ≤ afterDelay := by
          rw [hafterDelay, if_pos hrem]
        rw [hafterCall] at this
        omega

theorem sectionBatchPass_ok (outcome : ℕ → Option GroqError) (dur : ℕ → ℕ)
    (h : ∀ j, outcome j = none) :
    ∀ remaining i now last : ℕ,
      (sectionBatchPass outcome dur remaining i now last).2.2 = none := by
  intro remaining
  induction remaining with
  | zero => intro i now last; rfl
  | succ remaining ih =>
    intro i now last
    simp only [sectionBatchPass, h i]
    exact ih (i + 1) _ _

theorem batchRetryAux_first_ok (outcome : ℕ → ℕ → Option GroqError) (dur : ℕ → ℕ → ℕ)
    (n d rc now : ℕ)
    (h : (sectionBatchPass (outcome rc) (dur rc) n 0 now 0).2.2 = none) :
    ∀ fuel, batchRetryAux outcome dur n d rc fuel now
      = sectionBatchPass (outcome rc) (dur rc) n 0 now 0 := by
  intro fuel
  cases fuel with
  | zero => rfl
  | succ f => simp only [batchRetryAux, h]

/-- **C3 (amended).** The 15-second minimum spacing holds between the
requests of one uninterrupted pass of `generateSectionBatch`'s request
loop — enforced by the pass-**local** `lastRequestTime` plus the fixed
15-second inter-section delay — and hence over a whole invocation in
which no request fails (a single pass).  It holds neither across the
enclosing `withRetry`'s re-runs of the loop within one invocation nor
across invocations; see the counterexample. -/
theorem generateSectionBatch_spacing_single_pass
    (outcome : ℕ → ℕ → Option GroqError) (dur : ℕ → ℕ → ℕ) (n startNow : ℕ) :
    (∀ rc now, List.Chain' (fun a b => a + 15000 ≤ b)
        (sectionBatchPass (outcome rc) (dur rc) n 0 now 0).1) ∧
    ((∀ i, outcome 0 i = none) →
      List.Chain' (fun a b => a + 15000 ≤ b)
        (generateSectionBatchRun outcome dur n startNow).1) := by
  constructor
  · intro rc now
    exact (sectionBatchPass_spacing (outcome rc) (dur rc) n 0 now 0).2
  · intro hall
    rw [generateSectionBatchRun,
      batchRetryAux_first_ok outcome dur n 15000 0 startNow
        (sectionBatchPass_ok (outcome 0) (dur 0) hall n 0 startNow 0) 12]
    exact (sectionBatchPass_spacing (outcome 0) (dur 0) n 0 startNow 0).2

/-- Witness for C3: an all-successful three-section invocation (clock
1000000, 100 ms requests) issues its requests at 1000000, 1015100 and
1030200 — each 15100 ms after the previous one. -/
theorem generateSectionBatch_spacing_single_pass_witness :
    List.Chain' (fun a b => a + 15000 ≤ b)
      (generateSectionBatchRun (fun _ _ => none) (fun _ _ => 100) 3 1000000).1 ∧
    (generateSectionBatchRun (fun _ _ => none) (fun _ _ => 100) 3 1000000).1
      = [1000000, 1015100, 1030200] :=
  ⟨(generateSectionBatch_spacing_single_pass (fun _ _ => none) (fun _ _ => 100) 3
      1000000).2 (fun _ => rfl),
    by decide⟩

/-- **C3, counterexample.**  The spacing is neither invocation-wide nor
process-wide.  (i) Within one invocation: the first pass's request
(clock 1000000, 100 ms duration) fails rate-limited with a 7.5 s hint;
the loop's catch rethrows, `withRetry` waits only the parsed 7500 ms
and re-runs the loop with its local `lastRequestTime` starting at 0
again, so the retried request starts at 1007600 — 7600 ms after the
failed one.  (ii) Across invocations: a second all-successful
invocation started when the first ends issues its request at 1000100 —
100 ms after the first invocation's. -/
theorem sectionBatch_spacing_under_15s :
    (generateSectionBatchRun
        (fun rc _ => if rc = 0 then
            some ⟨some "rate_limit_exceeded",
              some "Rate limit reached. Please try again in 7.5s."⟩
          else none)
        (fun _ _ => 100) 1 1000000).1 = [1000000, 1007600] ∧
    1007600 < 1000000 + 15000 ∧
    (generateSectionBatchRun (fun _ _ => none) (fun _ _ => 100) 1 1000000).1
      = [1000000] ∧
    (generateSectionBatchRun (fun _ _ => none) (fun _ _ => 100) 1
        (generateSectionBatchRun (fun _ _ => none) (fun _ _ => 100) 1 1000000).2.1).1
      = [1000100] ∧
    1000100 < 1000000 + 15000 := by
  exact ⟨by decide, by decide, by decide, by decide, by decide⟩

/-! ## C2: partial failure in the document generator -/

theorem sectionRetryLoop_of_main_fail (mainGen : ℕ → ℕ → Option String)
    (subGen : ℕ → ℕ → Option (List String)) (K : ℕ)
    (hK : ∀ a, mainGen K a = none) :
    ∀ fuel a sec, sectionRetryLoop mainGen subGen K sec a fuel = (sec, false) := by
  intro fuel
  induction fuel with
  | zero => intro a sec; rfl
  | succ fuel ih =>
    intro a sec
    have hstep : attemptSection mainGen subGen K a sec = (sec, false) := by
      rw [attemptSection, hK a]
    rw [sectionRetryLoop, hstep]
    exact ih (a + 1) sec

theorem sectionRetryLoop_of_first_success (mainGen : ℕ → ℕ → Option String)
    (subGen : ℕ → ℕ → Option (List String)) (i : ℕ) (sec : ResearchSection)
    (h : (attemptSection mainGen subGen i 0 sec).2 = true) :
    sectionRetryLoop mainGen subGen i sec 0 8 = ((attemptSection mainGen subGen i 0 sec).1, true) := by
  rw [show (8 : ℕ) = 7 + 1 from rfl, sectionRetryLoop]
  rcases hres : attemptSection mainGen subGen i 0 sec with ⟨s', b⟩
  rw [hres] at h
  cases b with
  | false => simp at h
  | true => rfl

theorem attemptSection_success_content (mainGen : ℕ → ℕ → Option String)
    (subGen : ℕ → ℕ → Option (List String)) (i a : ℕ) (sec sec' : ResearchSection)
    (h : attemptSection mainGen subGen i a sec = (sec', true)) :
    ∃ mc, mainGen i a = some mc ∧ mc ≠ "" ∧ sec'.content = mc ∧
      sec'.number = sec.number ∧ sec'.title = sec.title := by
  cases hm : mainGen i a with
  | none => simp [attemptSection, hm] at h
  | some mc =>
    simp only [attemptSection, hm] at h
    by_cases hmc : mc = ""
    · rw [if_pos hmc] at h; simp at h
    · rw [if_neg hmc] at h
      refine ⟨mc, rfl, hmc, ?_⟩
      by_cases hsub : sec.subsections.isEmpty = true
      · rw [if_pos hsub, Prod.mk.injEq] at h
        obtain ⟨h1, -⟩ := h
        rw [← h1]
        exact ⟨rfl, rfl, rfl⟩
      · rw [if_neg hsub] at h
        cases hs : subGen i a with
        | none => simp only [hs] at h; simp at h
        | some scs =>
          simp only [hs] at h
          by_cases hscs : scs.isEmpty = true
          · rw [if_pos hscs] at h; simp at h
          · rw [if_neg hscs, Prod.mk.injEq] at h
            obtain ⟨h1, -⟩ := h
            rw [← h1]
            exact ⟨rfl, rfl, rfl⟩

theorem handleDocumentGeneration_offset (mainGen : ℕ → ℕ → Option String)
    (subGen : ℕ → ℕ → Option (List String)) (K : ℕ)
    (hK : ∀ a, mainGen K a = none) :
    ∀ (sections : List ResearchSection) (i0 : ℕ),
      (∀ j sec, sections[j]? = some sec → i0 + j ≠ K →
        (attemptSection mainGen subGen (i0 + j) 0 sec).2 = true) →
      (handleDocumentGeneration mainGen subGen sections i0).1.length = sections.length ∧
      (handleDocumentGeneration mainGen subGen sections i0).2
        = (if i0 ≤ K ∧ K < i0 + sections.length then [K] else []) ∧
      (∀ j sec, sections[j]? = some sec →
        (handleDocumentGeneration mainGen subGen sections i0).1[j]? =
          some (if i0 + j = K then sec else (attemptSection mainGen subGen (i0 + j) 0 sec).1)) := by
  intro sections
  induction sections with
  | nil =>
    intro i0 _
    refine ⟨rfl, ?_, ?_⟩
    · have hc : ¬(i0 ≤ K ∧ K < i0 + ([] : List ResearchSection).length) := by
        simp only [List.length_nil]; omega
      rw [if_neg hc]; rfl
    · intro j sec hj; simp at hj
  | cons sec rest ih =>
    intro i0 hO
    have hO' : ∀ j s, rest[j]? = some s → (i0 + 1) + j ≠ K →
        (attemptSection mainGen subGen ((i0 + 1) + j) 0 s).2 = true := by
      intro j s hj hne
      have := hO (j + 1) s (by simpa using hj) (by omega)
      rwa [show i0 + (j + 1) = i0 + 1 + j by omega] at this
    have hrec := ih (i0 + 1) hO'
    by_cases hKi : i0 = K
    · subst hKi
      have hfail : sectionRetryLoop mainGen subGen i0 sec 0 8 = (sec, false) :=
        sectionRetryLoop_of_main_fail mainGen subGen i0 hK 8 0 sec
      refine ⟨?_, ?_, ?_⟩
      · simp only [handleDocumentGeneration, hfail, List.length_cons]
        rw [hrec.1]
      · simp only [handleDocumentGeneration, hfail]
        have hc1 : ¬(i0 + 1 ≤ i0 ∧ i0 < i0 + 1 + rest.length) := by omega
        have hc2 : i0 ≤ i0 ∧ i0 < i0 + (sec :: rest).length := by
          simp only [List.length_cons]; omega
        rw [hrec.2.1, if_neg hc1, if_pos hc2]
        simp
      · intro j s hj
        rcases j with _ | j
        · simp only [List.getElem?_cons_zero, Option.some.injEq] at hj
          subst hj
          simp only [handleDocumentGeneration, hfail, List.getElem?_cons_zero]
          have hc : i0 + 0 = i0 := by omega
          rw [if_pos hc]
        · simp only [List.getElem?_cons_succ] at hj
          simp only [handleDocumentGeneration, hfail, List.getElem?_cons_succ]
          have := hrec.2.2 j s hj
          rwa [show i0 + 1 + j = i0 + (j + 1) by omega] at this
    · have hsucc : (attemptSection mainGen subGen i0 0 sec).2 = true := by
        have := hO 0 sec (by simp) (by omega)
        simpa using this
      have hstep := sectionRetryLoop_of_first_success mainGen subGen i0 sec hsucc
      refine ⟨?_, ?_, ?_⟩
      · simp only [handleDocumentGeneration, hstep, List.length_cons]
        rw [hrec.1]
      · simp only [handleDocumentGeneration, hstep]
        rw [hrec.2.1]
        by_cases hc : i0 + 1 ≤ K ∧ K < i0 + 1 + rest.length
        · have hc2 : i0 ≤ K ∧ K < i0 + (sec :: rest).length := by
            simp only [List.length_cons]; omega
          rw [if_pos hc, if_pos hc2]
          simp
        · have hc2 : ¬(i0 ≤ K ∧ K < i0 + (sec :: rest).length) := by
            simp only [List.length_cons]
            omega
          rw [if_neg hc, if_neg hc2]
          simp
      · intro j s hj
        rcases j with _ | j
        · simp only [List.getElem?_cons_zero, Option.some.injEq] at hj
          subst hj
          simp only [handleDocumentGeneration, hstep, List.getElem?_cons_zero]
          have hc : ¬(i0 + 0 = K) := by omega
          rw [if_neg hc, Nat.add_zero]
        · simp only [List.getElem?_cons_succ] at hj
          simp only [handleDocumentGeneration, hstep, List.getElem?_cons_succ]
          have := hrec.2.2 j s hj
          rwa [show i0 + 1 + j = i0 + (j + 1) by omega] at this

/-- **C2.** For every batch of sections in which node `K` permanently
fails (here: its backend call fails on every attempt, so its retry
budget is exhausted) while every other node's attempt succeeds, the
generator completes (it is a total function — the outer catch is
unreachable), returns the sections in input order with node `K` left
untouched and every other node carrying the non-empty generated content
of its successful attempt, and records exactly one failure, naming `K`. -/
theorem handleDocumentGeneration_partial_failure (mainGen : ℕ → ℕ → Option String)
    (subGen : ℕ → ℕ → Option (List String)) (sections : List ResearchSection) (K : ℕ)
    (hKlt : K < sections.length)
    (hK : ∀ a, mainGen K a = none)
    (hO : ∀ j sec, sections[j]? = some sec → j ≠ K →
      (attemptSection mainGen subGen j 0 sec).2 = true) :
    (handleDocumentGeneration mainGen subGen sections 0).1.length = sections.length ∧
    (handleDocumentGeneration mainGen subGen sections 0).2 = [K] ∧
    (handleDocumentGeneration mainGen subGen sections 0).1[K]? = sections[K]? ∧
    (∀ j sec, sections[j]? = some sec → j ≠ K →
      (handleDocumentGeneration mainGen subGen sections 0).1[j]? =
        some (attemptSection mainGen subGen j 0 sec).1) ∧
    (∀ i a sec sec', attemptSection mainGen subGen i a sec = (sec', true) →
      ∃ mc, mainGen i a = some mc ∧ mc ≠ "" ∧ sec'.content = mc ∧
        sec'.number = sec.number ∧ sec'.title = sec.title) := by
  have h := handleDocumentGeneration_offset mainGen subGen K hK sections 0
    (by intro j sec hj hne; simpa using hO j sec hj (by omega))
  refine ⟨h.1, ?_, ?_, ?_, ?_⟩
  · rw [h.2.1, if_pos ⟨Nat.zero_le _, by omega⟩]
  · obtain ⟨secK, hsecK⟩ : ∃ s, sections[K]? = some s := by
      rw [List.getElem?_eq_getElem hKlt]; exact ⟨_, rfl⟩
    have hout := h.2.2 K secK hsecK
    have hc : (0 : ℕ) + K = K := by omega
    rw [hsecK, hout, if_pos hc]
  · intro j sec hj hne
    have := h.2.2 j sec hj
    rwa [if_neg (by omega), Nat.zero_add] at this
  · exact fun i a sec sec' hh => attemptSection_success_content mainGen subGen i a sec sec' hh

/-- Witness for C2: three sections, of which the middle one (index 1)
always fails and the others succeed on their first attempt; the
generator returns content for sections 0 and 2, leaves section 1
untouched, and records exactly the failure `[1]`. -/
theorem handleDocumentGeneration_partial_failure_witness :
    (handleDocumentGeneration (fun i _ => if i = 1 then none else some "generated")
        (fun _ _ => some ["sub gen"])
        [⟨"1", "A", "", []⟩, ⟨"2", "B", "", [⟨"2.1", "B1", ""⟩]⟩, ⟨"3", "C", "", []⟩] 0).2 = [1] ∧
    (handleDocumentGeneration (fun i _ => if i = 1 then none else some "generated")
        (fun _ _ => some ["sub gen"])
        [⟨"1", "A", "", []⟩, ⟨"2", "B", "", [⟨"2.1", "B1", ""⟩]⟩, ⟨"3", "C", "", []⟩] 0).1.length = 3 := by
  have h := handleDocumentGeneration_partial_failure
    (fun i _ => if i = 1 then none else some "generated")
    (fun _ _ => some ["sub gen"])
    [⟨"1", "A", "", []⟩, ⟨"2", "B", "", [⟨"2.1", "B1", ""⟩]⟩, ⟨"3", "C", "", []⟩] 1
    (by decide)
    (fun a => rfl)
    (by
      intro j sec hj hne
      rcases j with _ | _ | _ | j
      · simp only [List.getElem?_cons_zero, Option.some.injEq] at hj
        subst hj
        decide
      · exact absurd rfl hne
      · simp only [List.getElem?_cons_succ, List.getElem?_cons_zero, Option.some.injEq] at hj
        subst hj
        decide
      · simp at hj)
  exact ⟨h.2.1, h.1⟩

/-! ## C6: the parser refines the block description -/

theorem digit_not_ws (c : Char) (h : c.isDigit = true) : c.isWhitespace = false := by
  by_contra hw
  simp only [Bool.not_eq_false] at hw
  simp only [Char.isWhitespace, Bool.or_eq_true, decide_eq_true_eq] at hw
  rcases hw with ((h1 | h1) | h1) | h1 <;> (subst h1; revert h; decide)

theorem bracket_main_none (l : String) (h : startsWithBracket l = true) :
    mainSectionMatch l = none := by
  rw [startsWithBracket, beq_iff_eq] at h
  cases hd : l.data with
  | nil => rw [hd] at h; simp at h
  | cons c t =>
    rw [hd] at h
    simp only [List.head?_cons, Option.some.injEq] at h
    subst h
    simp only [mainSectionMatch, hd]
    simp

theorem bracket_sub_none (l : String) (h : startsWithBracket l = true) :
    subSectionMatch l = none := by
  rw [startsWithBracket, beq_iff_eq] at h
  cases hd : l.data with
  | nil => rw [hd] at h; simp at h
  | cons c t =>
    rw [hd] at h
    simp only [List.head?_cons, Option.some.injEq] at h
    subst h
    simp only [subSectionMatch, hd]
    simp

theorem sub_main_none (l : String) (p : String × String)
    (h : subSectionMatch l = some p) : mainSectionMatch l = none := by
  simp only [subSectionMatch] at h
  simp only [mainSectionMatch]
  by_cases hds : (l.data.takeWhile Char.isDigit).isEmpty = true
  · rw [if_pos hds]
  · rw [if_neg hds] at h ⊢
    by_cases hdot : (l.data.dropWhile Char.isDigit).head? = some '.'
    · rw [if_pos hdot] at h ⊢
      by_cases hes : ((l.data.dropWhile Char.isDigit).tail.takeWhile Char.isDigit).isEmpty = true
      · rw [if_pos hes] at h; exact absurd h (by simp)
      · have hhead : ∃ e, (l.data.dropWhile Char.isDigit).tail.head? = some e ∧ e.isDigit = true := by
          cases ht : (l.data.dropWhile Char.isDigit).tail with
          | nil => rw [ht] at hes; simp at hes
          | cons e r =>
            rw [ht] at hes
            by_cases he : e.isDigit = true
            · exact ⟨e, by simp, he⟩
            · rw [List.takeWhile_cons_of_neg (by simpa using he)] at hes; simp at hes
        obtain ⟨e, he1, he2⟩ := hhead
        have hnone : matchTitleAfterWs (l.data.dropWhile Char.isDigit).tail = none := by
          rw [matchTitleAfterWs]
          cases ht : (l.data.dropWhile Char.isDigit).tail with
          | nil => rw [ht] at he1; simp at he1
          | cons e' r =>
            rw [ht] at he1
            simp only [List.head?_cons, Option.some.injEq] at he1
            subst he1
            rw [List.takeWhile_cons_of_neg (by simp [digit_not_ws e' he2])]
            simp
        rw [hnone]
        simp
    · rw [if_neg hdot] at h; exact absurd h (by simp)

theorem takeDesc_length_le (ls : List String) : (takeDesc ls).2.length ≤ ls.length := by
  cases ls with
  | nil => simp [takeDesc]
  | cons l rest => by_cases h : startsWithBracket l = true <;> simp [takeDesc, h]

theorem parseLoopAux_irrel : ∀ (f1 f2 : ℕ) (lines : List String) (cur : Option ResearchSection),
    lines.length ≤ f1 → lines.length ≤ f2 →
    parseLoopAux f1 lines cur = parseLoopAux f2 lines cur := by
  intro f1
  induction f1 with
  | zero =>
    intro f2 lines cur h1 h2
    have hnil : lines = [] := List.eq_nil_of_length_eq_zero (by omega)
    subst hnil
    cases f2 <;> rfl
  | succ f1 ih =>
    intro f2 lines cur h1 h2
    cases lines with
    | nil => cases f2 <;> rfl
    | cons l rest =>
      cases f2 with
      | zero => simp at h2
      | succ f2 =>
        have hr1 : rest.length ≤ f1 := by simp at h1; omega
        have hr2 : rest.length ≤ f2 := by simp at h2; omega
        have hd1 : (takeDesc rest).2.length ≤ f1 := le_trans (takeDesc_length_le rest) hr1
        have hd2 : (takeDesc rest).2.length ≤ f2 := le_trans (takeDesc_length_le rest) hr2
        cases hm : mainSectionMatch l with
        | some p =>
          obtain ⟨num, t⟩ := p
          simp only [parseLoopAux, hm]
          rw [ih f2 _ _ hd1 hd2]
        | none =>
          cases hs : subSectionMatch l with
          | some p =>
            obtain ⟨num, t⟩ := p
            cases cur with
            | some c =>
              simp only [parseLoopAux, hm, hs]
              rw [ih f2 _ _ hd1 hd2]
            | none =>
              simp only [parseLoopAux, hm, hs]
              rw [ih f2 _ _ hr1 hr2]
          | none =>
            simp only [parseLoopAux, hm, hs]
            rw [ih f2 _ _ hr1 hr2]

theorem parseLoop_nil (cur : Option ResearchSection) : parseLoop [] cur = flushCur cur := rfl

theorem parseLoop_cons_main (l : String) (rest : List String) (cur : Option ResearchSection)
    (num t : String) (hm : mainSectionMatch l = some (num, t)) :
    parseLoop (l :: rest) cur =
      flushCur cur ++
        parseLoop (takeDesc rest).2 (some ⟨num, strTrim t, (takeDesc rest).1, []⟩) := by
  rw [parseLoop, parseLoop]
  simp only [List.length_cons, parseLoopAux, hm]
  rw [parseLoopAux_irrel rest.length (takeDesc rest).2.length _ _ (takeDesc_length_le rest) le_rfl]

theorem parseLoop_cons_sub (l : String) (rest : List String) (c : ResearchSection)
    (num t : String) (hm : mainSectionMatch l = none)
    (hs : subSectionMatch l = some (num, t)) :
    parseLoop (l :: rest) (some c) =
      parseLoop (takeDesc rest).2
        (some { c with subsections := c.subsections ++ [⟨num, strTrim t, (takeDesc rest).1⟩] }) := by
  rw [parseLoop, parseLoop]
  simp only [List.length_cons, parseLoopAux, hm, hs]
  rw [parseLoopAux_irrel rest.length (takeDesc rest).2.length _ _ (takeDesc_length_le rest) le_rfl]

theorem parseLoop_cons_sub_none (l : String) (rest : List String)
    (num t : String) (hm : mainSectionMatch l = none)
    (hs : subSectionMatch l = some (num, t)) :
    parseLoop (l :: rest) none = parseLoop rest none := by
  rw [parseLoop, parseLoop]
  simp only [List.length_cons, parseLoopAux, hm, hs]

theorem parseLoop_cons_skip (l : String) (rest : List String) (cur : Option ResearchSection)
    (hm : mainSectionMatch l = none) (hs : subSectionMatch l = none) :
    parseLoop (l :: rest) cur = parseLoop rest cur := by
  rw [parseLoop, parseLoop]
  simp only [List.length_cons, parseLoopAux, hm, hs]

theorem parseLoop_eq_blocksWithOpen (lines : List String) (cur : Option ResearchSection) :
    parseLoop lines cur = blocksWithOpen lines cur := by
  suffices H : ∀ n lines cur, List.length lines = n →
      parseLoop lines cur = blocksWithOpen lines cur from H lines.length lines cur rfl
  intro n
  induction n using Nat.strong_induction_on with
  | _ n ih =>
    intro lines cur hlen
    cases lines with
    | nil =>
      cases cur with
      | none => simp [parseLoop_nil, flushCur, blocksWithOpen, parseBlocks]
      | some c => simp [parseLoop_nil, flushCur, blocksWithOpen, parseBlocks, specSubs]
    | cons l rest =>
      subst hlen
      have hrest : ∀ (X : List String) c', X.length ≤ rest.length →
          parseLoop X c' = blocksWithOpen X c' := by
        intro X c' hX
        exact ih X.length (by simp; omega) X c' rfl
      cases hm : mainSectionMatch l with
      | some p =>
        obtain ⟨num, t⟩ := p
        have hmn : (mainSectionMatch l).isNone = false := by rw [hm]; rfl
        rw [parseLoop_cons_main l rest cur num t hm,
          hrest (takeDesc rest).2 _ (takeDesc_length_le rest)]
        cases cur with
        | none =>
          simp [blocksWithOpen, flushCur, parseBlocks, hm]
        | some c =>
          simp [blocksWithOpen, flushCur, parseBlocks, hm, hmn,
            List.takeWhile_cons, List.dropWhile_cons, specSubs]
      | none =>
        have hmn : (mainSectionMatch l).isNone = true := by rw [hm]; rfl
        cases hs : subSectionMatch l with
        | some p =>
          obtain ⟨num, t⟩ := p
          cases cur with
          | none =>
            rw [parseLoop_cons_sub_none l rest num t hm hs, hrest rest _ le_rfl]
            simp [blocksWithOpen, parseBlocks, hm]
          | some c =>
            rw [parseLoop_cons_sub l rest c num t hm hs,
              hrest (takeDesc rest).2 _ (takeDesc_length_le rest)]
            simp only [blocksWithOpen, List.takeWhile_cons, List.dropWhile_cons, hmn, if_true]
            cases rest with
            | nil =>
              simp [takeDesc, specSubs, hs, blocksWithOpen]
            | cons r0 rr =>
              by_cases hb : startsWithBracket r0 = true
              · have hq0 : (mainSectionMatch r0).isNone = true := by
                  rw [bracket_main_none r0 hb]; rfl
                simp [takeDesc, hb, specSubs, hs, hq0, List.takeWhile_cons, List.dropWhile_cons,
                  blocksWithOpen, List.append_assoc]
              · by_cases hq : (mainSectionMatch r0).isNone = true
                · simp [takeDesc, hb, specSubs, hs, hq,
                    List.takeWhile_cons, List.dropWhile_cons, blocksWithOpen, List.append_assoc]
                · simp [takeDesc, hb, specSubs, hs, hq,
                    List.takeWhile_cons, List.dropWhile_cons, blocksWithOpen, List.append_assoc]
        | none =>
          rw [parseLoop_cons_skip l rest cur hm hs, hrest rest _ le_rfl]
          cases cur with
          | none => simp [blocksWithOpen, parseBlocks, hm]
          | some c =>
            simp [blocksWithOpen, List.takeWhile_cons, List.dropWhile_cons, hmn, specSubs, hs]

/-- **C6.** The outline parser of `ResearchPage.tsx` equals the
declarative block description `parseBlocks`: every `integer.integer`
line is turned into a subsection of the main section opened by the most
recent main-section line — never into a new top-level section — and is
dropped when no main section is open; a main-section line always closes
the running block; and the resulting tree is two levels deep (the
`Subsection` nodes carry no children by construction). -/
theorem parseOutlineSections_eq_parseBlocks (text : String) :
    parseOutlineSections text = parseBlocks (linesOf text) :=
  parseLoop_eq_blocksWithOpen (linesOf text) none

/-! ## C1: parse/flatten round trip -/

theorem lineToPair_main (l : String) (num t : String)
    (hm : mainSectionMatch l = some (num, t)) :
    lineToPair l = some (num, strTrim t) := by
  simp [lineToPair, hm]

theorem lineToPair_sub (l : String) (num t : String)
    (hm : mainSectionMatch l = none) (hs : subSectionMatch l = some (num, t)) :
    lineToPair l = some (num, strTrim t) := by
  simp [lineToPair, hm, hs]

theorem pair_not_bracket (l : String) (h : (lineToPair l).isSome = true) :
    startsWithBracket l = false := by
  by_contra hb
  simp only [Bool.not_eq_false] at hb
  rw [lineToPair, bracket_main_none l hb, bracket_sub_none l hb] at h
  simp at h

theorem takeDesc_of_no_bracket (xs : List String)
    (h : ∀ l, xs.head? = some l → startsWithBracket l = false) :
    takeDesc xs = ("", xs) := by
  cases xs with
  | nil => rfl
  | cons x xs' =>
    have := h x rfl
    simp [takeDesc, this]

theorem dropWhile_head_not (q : String → Bool) (xs : List String) :
    ∀ l, (xs.dropWhile q).head? = some l → q l = false := by
  induction xs with
  | nil => intro l h; simp at h
  | cons x xs' ih =>
    intro l h
    by_cases hq : q x = true
    · rw [List.dropWhile_cons_of_pos hq] at h
      exact ih l h
    · rw [List.dropWhile_cons_of_neg hq] at h
      simp only [List.head?_cons, Option.some.injEq] at h
      subst h
      simpa using hq

theorem specSubs_pairs (xs : List String)
    (hx : ∀ l ∈ xs, (lineToPair l).isSome = true)
    (hq : ∀ l ∈ xs, (mainSectionMatch l).isNone = true) :
    (specSubs xs).map (fun s => (s.number, s.title)) = xs.filterMap lineToPair := by
  induction xs with
  | nil => simp [specSubs]
  | cons x xs' ih =>
    have hmx : mainSectionMatch x = none := by
      have := hq x (by simp)
      cases hm : mainSectionMatch x with
      | none => rfl
      | some p => rw [hm] at this; simp at this
    have hsx : ∃ p, subSectionMatch x = some p := by
      have := hx x (by simp)
      rw [lineToPair, hmx] at this
      cases hs : subSectionMatch x with
      | none => rw [hs] at this; simp at this
      | some p => exact ⟨p, rfl⟩
    obtain ⟨⟨num, t⟩, hsx⟩ := hsx
    have hdesc : takeDesc xs' = ("", xs') :=
      takeDesc_of_no_bracket xs' (fun l hl => by
        refine pair_not_bracket l (hx l ?_)
        cases xs' with
        | nil => simp at hl
        | cons y ys => simp only [List.head?_cons, Option.some.injEq] at hl; simp [hl])
    simp only [specSubs, hsx, hdesc, List.map_cons, List.filterMap_cons,
      lineToPair_sub x num t hmx hsx]
    rw [ih (fun l hl => hx l (by simp [hl])) (fun l hl => hq l (by simp [hl]))]

theorem flattenPairs_parseBlocks (lines : List String)
    (hmatch : ∀ l ∈ lines, (lineToPair l).isSome = true)
    (hfirst : ∀ l, lines.head? = some l → (mainSectionMatch l).isSome = true) :
    flattenPairs (parseBlocks lines) = lines.filterMap lineToPair := by
  suffices H : ∀ n lines, List.length lines = n →
      (∀ l ∈ lines, (lineToPair l).isSome = true) →
      (∀ l, lines.head? = some l → (mainSectionMatch l).isSome = true) →
      flattenPairs (parseBlocks lines) = lines.filterMap lineToPair from
    H lines.length lines rfl hmatch hfirst
  intro n
  induction n using Nat.strong_induction_on with
  | _ n ih =>
    intro lines hlen hmatch hfirst
    cases lines with
    | nil => simp [parseBlocks, flattenPairs]
    | cons l rest =>
      subst hlen
      obtain ⟨⟨num, t⟩, hm⟩ : ∃ p, mainSectionMatch l = some p := by
        have := hfirst l rfl
        cases hx : mainSectionMatch l with
        | none => rw [hx] at this; simp at this
        | some p => exact ⟨p, rfl⟩
      have hdesc : takeDesc rest = ("", rest) :=
        takeDesc_of_no_bracket rest (fun l2 hl2 => by
          refine pair_not_bracket l2 (hmatch l2 ?_)
          cases rest with
          | nil => simp at hl2
          | cons y ys => simp only [List.head?_cons, Option.some.injEq] at hl2; simp [hl2])
      have hTW := List.takeWhile_append_dropWhile
        (p := fun x => (mainSectionMatch x).isNone) (l := rest)
      have hsubpairs :=
        specSubs_pairs (rest.takeWhile (fun x => (mainSectionMatch x).isNone))
          (fun l2 hl2 => hmatch l2 (by
            simp only [List.mem_cons]
            exact Or.inr ((List.takeWhile_sublist _).subset hl2)))
          (fun l2 hl2 =>
            List.mem_takeWhile_imp (p := fun x => (mainSectionMatch x).isNone) hl2)
      have hrec := ih (rest.dropWhile (fun x => (mainSectionMatch x).isNone)).length
        (by
          have := (List.dropWhile_sublist (l := rest)
            (p := fun x => (mainSectionMatch x).isNone)).length_le
          simp only [List.length_cons]
          omega)
        (rest.dropWhile (fun x => (mainSectionMatch x).isNone)) rfl
        (fun l2 hl2 => hmatch l2 (by
          simp only [List.mem_cons]
          exact Or.inr ((List.dropWhile_sublist _).subset hl2)))
        (fun l2 hl2 => by
          have := dropWhile_head_not (fun x => (mainSectionMatch x).isNone) rest l2 hl2
          cases hx : mainSectionMatch l2 with
          | none => simp only [hx] at this; simp at this
          | some p => rfl)
      have hfcons : ∀ (s : ResearchSection) ss, flattenPairs (s :: ss) =
          (s.number, s.title) ::
            (s.subsections.map (fun sub => (sub.number, sub.title)) ++ flattenPairs ss) := by
        intro s ss; simp [flattenPairs]
      simp only [parseBlocks, hm, hdesc]
      rw [hfcons]
      simp only [List.filterMap_cons, lineToPair_main l num t hm]
      rw [hsubpairs, hrec, ← List.filterMap_append, hTW]

/-- **C1, counterexample.**  The input `"1.1 Introduction"` is
well-formed in the claim's sense — its single line matches the
documented subsection pattern — yet the parser drops a subsection line
that precedes any main-section line, so parsing and flattening yields
`[]` rather than the line's `(number, title)` pair. -/
theorem parse_flatten_drops_leading_subsection :
    (∀ l ∈ linesOf "1.1 Introduction", (lineToPair l).isSome = true) ∧
    flattenPairs (parseOutlineSections "1.1 Introduction") = [] ∧
    (linesOf "1.1 Introduction").filterMap lineToPair = [("1.1", "Introduction")] ∧
    ([] : List (String × String)) ≠ [("1.1", "Introduction")] := by
  exact ⟨by decide, by decide, by decide, by decide⟩

/-- **C1 (amended).**  For outline text in which every (trimmed,
non-empty) line matches the main-section or subsection pattern *and*
the first such line is a main-section line (so no subsection line
precedes every main section — the case the code silently drops),
parsing and then flattening the tree in document order yields exactly
the `(number, title)` pairs of the input lines, in original order; in
particular the section still open at the end of the input is included
(the final flush). -/
theorem parse_flatten_roundtrip (text : String)
    (hmatch : ∀ l ∈ linesOf text, (lineToPair l).isSome = true)
    (hfirst : ∀ l, (linesOf text).head? = some l → (mainSectionMatch l).isSome = true) :
    flattenPairs (parseOutlineSections text) = (linesOf text).filterMap lineToPair := by
  rw [parseOutlineSections, parseLoop_eq_blocksWithOpen]
  exact flattenPairs_parseBlocks (linesOf text) hmatch hfirst

/-- Witness for C1: a three-line outline whose flattening returns all
three numbered lines in order — including the final, never-closed
section `2. Methods` (the final flush). -/
theorem parse_flatten_roundtrip_witness :
    (∀ l ∈ linesOf "1. Intro\n1.1 Background\n2. Methods", (lineToPair l).isSome = true) ∧
    flattenPairs (parseOutlineSections "1. Intro\n1.1 Background\n2. Methods") =
      (linesOf "1. Intro\n1.1 Background\n2. Methods").filterMap lineToPair ∧
    (linesOf "1. Intro\n1.1 Background\n2. Methods").filterMap lineToPair =
      [("1", "Intro"), ("1.1", "Background"), ("2", "Methods")] := by
  exact ⟨by decide,
    parse_flatten_roundtrip "1. Intro\n1.1 Background\n2. Methods" (by decide) (by decide),
    by decide⟩

/-! ## C8: titles are cut at the bracket and trimmed (quotes are kept) -/

theorem ws_not_digit (c : Char) (h : c.isWhitespace = true) : c.isDigit = false := by
  by_contra hd
  simp only [Bool.not_eq_false] at hd
  rw [digit_not_ws c hd] at h
  simp at h

theorem head?_dropWhile_not {α : Type} (p : α → Bool) (xs : List α) :
    ∀ a, (xs.dropWhile p).head? = some a → p a = false := by
  induction xs with
  | nil => intro a h; simp at h
  | cons x xs' ih =>
    intro a h
    by_cases hp : p x = true
    · rw [List.dropWhile_cons_of_pos hp] at h
      exact ih a h
    · rw [List.dropWhile_cons_of_neg hp] at h
      simp only [List.head?_cons, Option.some.injEq] at h
      subst h
      simpa using hp

theorem mem_of_head?_dropWhile {α : Type} (p : α → Bool) (xs : List α) (a : α)
    (h : (xs.dropWhile p).head? = some a) : a ∈ xs :=
  (List.dropWhile_sublist p).subset (List.mem_of_mem_head? h)

theorem dropWhile_append_all {α : Type} (p : α → Bool) (xs ys : List α)
    (h : ∀ x ∈ xs, p x = true) :
    (xs ++ ys).dropWhile p = ys.dropWhile p := by
  induction xs with
  | nil => rfl
  | cons x xs' ih =>
    rw [List.cons_append, List.dropWhile_cons_of_pos (h x (by simp))]
    exact ih (fun x hx => h x (by simp [hx]))

theorem dropWhile_append_ex {α : Type} (p : α → Bool) (xs ys : List α)
    (h : ∃ x ∈ xs, p x = false) :
    (xs ++ ys).dropWhile p = xs.dropWhile p ++ ys := by
  induction xs with
  | nil => obtain ⟨x, hx, -⟩ := h; simp at hx
  | cons x xs' ih =>
    by_cases hp : p x = true
    · rw [List.cons_append, List.dropWhile_cons_of_pos hp, List.dropWhile_cons_of_pos hp]
      refine ih ?_
      obtain ⟨y, hy, hyp⟩ := h
      rcases List.mem_cons.1 hy with rfl | hy'
      · rw [hp] at hyp; simp at hyp
      · exact ⟨y, hy', hyp⟩
    · rw [List.cons_append, List.dropWhile_cons_of_neg hp, List.dropWhile_cons_of_neg hp,
        List.cons_append]

theorem dropWhile_ne_nil_of_ex {α : Type} (p : α → Bool) (xs : List α)
    (h : ∃ x ∈ xs, p x = false) : xs.dropWhile p ≠ [] := by
  induction xs with
  | nil => obtain ⟨x, hx, -⟩ := h; simp at hx
  | cons x xs' ih =>
    by_cases hp : p x = true
    · rw [List.dropWhile_cons_of_pos hp]
      refine ih ?_
      obtain ⟨y, hy, hyp⟩ := h
      rcases List.mem_cons.1 hy with rfl | hy'
      · rw [hp] at hyp; simp at hyp
      · exact ⟨y, hy', hyp⟩
    · rw [List.dropWhile_cons_of_neg hp]
      simp

/-- The lazy title group stops exactly at the end of the pre-bracket
text: for text `t` (no `[`, not ending in whitespace) and a tail that is
either empty or whitespace followed by `[...`, the capture is `t`. -/
theorem titleSplit_stop (t tail : List Char) (ht : t ≠ []) (hnb : '[' ∉ t)
    (htl : ∀ c, t.getLast? = some c → c.isWhitespace = false)
    (htail : tail = [] ∨ ∃ w d, tail = w ++ '[' :: d ∧ w ≠ [] ∧ ∀ c ∈ w, c.isWhitespace = true) :
    titleSplit (t ++ tail) = some t := by
  induction t with
  | nil => exact absurd rfl ht
  | cons c cs ih =>
    cases hcs : cs with
    | nil =>
      have hok : titleStopOk tail = true := by
        rcases htail with rfl | ⟨w, d, rfl, hw, hwall⟩
        · rfl
        · rw [titleStopOk, dropWhile_append_all Char.isWhitespace w ('[' :: d) hwall]
          rw [List.dropWhile_cons_of_neg (by decide)]
          simp
      simp [titleSplit, hok]
    | cons c2 cs2 =>
      rw [← hcs]
      have hcs_ne : cs ≠ [] := by rw [hcs]; simp
      have hlast : ∀ x, cs.getLast? = some x → x.isWhitespace = false := by
        intro x hx
        refine htl x ?_
        rw [List.getLast?_cons, hx]
        rfl
      have hynw : ∃ y ∈ cs, y.isWhitespace = false := by
        refine ⟨cs.getLast hcs_ne, List.getLast_mem hcs_ne, ?_⟩
        exact hlast _ (List.getLast?_eq_getLast cs hcs_ne)
      have hnb' : '[' ∉ cs := fun hmem => hnb (by simp [hmem])
      have hok : titleStopOk (cs ++ tail) = false := by
        rw [titleStopOk]
        have h1 : (cs ++ tail).isEmpty = false := by
          cases cs with
          | nil => exact absurd rfl hcs_ne
          | cons a b => rfl
        rw [h1]
        have h2 : (cs ++ tail).dropWhile Char.isWhitespace
            = cs.dropWhile Char.isWhitespace ++ tail :=
          dropWhile_append_ex Char.isWhitespace cs tail hynw
        rw [h2]
        have h3 : cs.dropWhile Char.isWhitespace ≠ [] :=
          dropWhile_ne_nil_of_ex Char.isWhitespace cs hynw
        obtain ⟨a, as, ha⟩ := List.exists_cons_of_ne_nil h3
        rw [ha]
        have haMem : a ∈ cs := mem_of_head?_dropWhile Char.isWhitespace cs a (by rw [ha]; rfl)
        have haNe : a ≠ '[' := fun hEq => hnb' (hEq ▸ haMem)
        simp [haNe]
      have hrec := ih hcs_ne hnb' hlast
      rw [List.cons_append, titleSplit]
      rw [if_neg (by rw [hok]; simp), hrec]
      rfl

theorem matchTitleAfterWs_pos (wsp rest : List Char) (r : List Char)
    (hws : wsp ≠ []) (hwsall : ∀ c ∈ wsp, c.isWhitespace = true)
    (hhead : ∀ c, rest.head? = some c → c.isWhitespace = false) (hne : rest ≠ [])
    (hts : titleSplit rest = some r) :
    matchTitleAfterWs (wsp ++ rest) = some r := by
  obtain ⟨c0, rest', rfl⟩ := List.exists_cons_of_ne_nil hne
  have hc0 : c0.isWhitespace = false := hhead c0 rfl
  have h := takeWhile_append_eq (p := Char.isWhitespace) c0 rest' hwsall hc0
  have hwsE : wsp.isEmpty = false := by
    cases wsp with
    | nil => exact absurd rfl hws
    | cons a b => rfl
  rw [matchTitleAfterWs]
  simp only [h.1, h.2, hts]
  rw [if_neg (by rw [hwsE]; simp)]

theorem mainSectionMatch_make (ds rest : List Char)
    (hds : ds ≠ []) (hdsd : ∀ c ∈ ds, c.isDigit = true)
    (tRes : List Char) (hm : matchTitleAfterWs rest = some tRes) :
    mainSectionMatch (String.mk (ds ++ '.' :: rest)) = some (String.mk ds, String.mk tRes) := by
  have h := takeWhile_append_eq (p := Char.isDigit) '.' rest hdsd (by decide)
  have hdsE : ds.isEmpty = false := by
    cases ds with
    | nil => exact absurd rfl hds
    | cons a b => rfl
  rw [mainSectionMatch]
  simp only [h.1, h.2]
  rw [if_neg (by rw [hdsE]; simp)]
  rw [if_pos (by rfl)]
  simp only [List.tail_cons, hm]
  rfl

theorem subSectionMatch_make (ds es rest : List Char)
    (hds : ds ≠ []) (hdsd : ∀ c ∈ ds, c.isDigit = true)
    (hes : es ≠ []) (hesd : ∀ c ∈ es, c.isDigit = true)
    (hrh : ∀ c, rest.head? = some c → c.isDigit = false) (hrne : rest ≠ [])
    (tRes : List Char) (hm : matchTitleAfterWs rest = some tRes) :
    subSectionMatch (String.mk (ds ++ '.' :: (es ++ rest)))
      = some (String.mk (ds ++ '.' :: es), String.mk tRes) := by
  have h := takeWhile_append_eq (p := Char.isDigit) '.' (es ++ rest) hdsd (by decide)
  obtain ⟨y, rest', rfl⟩ := List.exists_cons_of_ne_nil hrne
  have hy : y.isDigit = false := hrh y rfl
  have h2 := takeWhile_append_eq (p := Char.isDigit) y rest' hesd hy
  have hdsE : ds.isEmpty = false := by
    cases ds with
    | nil => exact absurd rfl hds
    | cons a b => rfl
  have hesE : es.isEmpty = false := by
    cases es with
    | nil => exact absurd rfl hes
    | cons a b => rfl
  rw [subSectionMatch]
  simp only [h.1, h.2]
  rw [if_neg (by rw [hdsE]; simp)]
  rw [if_pos (by rfl)]
  simp only [List.tail_cons, h2.1, h2.2]
  rw [if_neg (by rw [hesE]; simp)]
  simp only [hm]
  rfl

theorem trimChars_eq_self (t : List Char)
    (hh : ∀ c, t.head? = some c → c.isWhitespace = false)
    (hl : ∀ c, t.getLast? = some c → c.isWhitespace = false) :
    trimChars t = t := by
  rw [trimChars]
  have h1 : t.dropWhile Char.isWhitespace = t := by
    cases t with
    | nil => rfl
    | cons c cs => rw [List.dropWhile_cons_of_neg (by simp [hh c rfl])]
  rw [h1]
  have h2 : t.reverse.dropWhile Char.isWhitespace = t.reverse := by
    cases hr : t.reverse with
    | nil => rfl
    | cons c cs =>
      have hc : t.getLast? = some c := by rw [List.getLast?_eq_head?_reverse, hr]; rfl
      rw [List.dropWhile_cons_of_neg (by simp [hl c hc])]
  rw [h2, List.reverse_reverse]

/-- **C8, counterexample.**  The claim says stored titles have enclosing
quote characters removed; the parser only trims whitespace, so the line
`1. "Intro"` stores the title `"Intro"` with its quotes (quote
stripping in the source applies to the *paper* title, not to section
titles). -/
theorem parse_title_keeps_quotes :
    parseOutlineSections "1. \"Intro\"" =
      [⟨"1", "\"Intro\"", "", []⟩] ∧ ("\"Intro\"" : String) ≠ "Intro" := by
  exact ⟨by decide, by decide⟩

/-- **C8 (amended).**  For every parsed section or subsection whose line
consists of the dotted number, whitespace, the title text `t` (free of
`[`, not starting or ending in whitespace), and an optional trailing
bracketed description, the stored title is exactly `t` — i.e. the line's
text up to (but not including) the optional bracketed part, trimmed of
surrounding whitespace; enclosing quote characters are *not* removed
(`strTrim` is the only normalisation applied). -/
theorem parse_title_up_to_bracket (ds es wsp t tail : List Char)
    (hds : ds ≠ []) (hdsd : ∀ c ∈ ds, c.isDigit = true)
    (hes : es ≠ []) (hesd : ∀ c ∈ es, c.isDigit = true)
    (hws : wsp ≠ []) (hwsall : ∀ c ∈ wsp, c.isWhitespace = true)
    (ht : t ≠ []) (hnb : '[' ∉ t)
    (hth : ∀ c, t.head? = some c → c.isWhitespace = false)
    (htl : ∀ c, t.getLast? = some c → c.isWhitespace = false)
    (htail : tail = [] ∨ ∃ w d, tail = w ++ '[' :: d ∧ w ≠ [] ∧ ∀ c ∈ w, c.isWhitespace = true) :
    lineToPair (String.mk (ds ++ '.' :: (wsp ++ (t ++ tail))))
      = some (String.mk ds, String.mk t) ∧
    lineToPair (String.mk (ds ++ '.' :: (es ++ (wsp ++ (t ++ tail)))))
      = some (String.mk (ds ++ '.' :: es), String.mk t) ∧
    strTrim (String.mk t) = String.mk t := by
  have hth' : ∀ c, (t ++ tail).head? = some c → c.isWhitespace = false := by
    intro c hc
    cases t with
    | nil => exact absurd rfl ht
    | cons x xs =>
      simp only [List.cons_append, List.head?_cons, Option.some.injEq] at hc
      subst hc
      exact hth x rfl
  have htne : t ++ tail ≠ [] := by
    cases t with
    | nil => exact absurd rfl ht
    | cons x xs => simp
  have hts : titleSplit (t ++ tail) = some t := titleSplit_stop t tail ht hnb htl htail
  have hmw : matchTitleAfterWs (wsp ++ (t ++ tail)) = some t :=
    matchTitleAfterWs_pos wsp (t ++ tail) t hws hwsall hth' htne hts
  have htrim : strTrim (String.mk t) = String.mk t := by
    rw [strTrim]
    rw [trimChars_eq_self t hth htl]
  have hmain := mainSectionMatch_make ds (wsp ++ (t ++ tail)) hds hdsd t hmw
  have hsubrest_ne : wsp ++ (t ++ tail) ≠ [] := by
    cases wsp with
    | nil => exact absurd rfl hws
    | cons a b => simp
  have hsub := subSectionMatch_make ds es (wsp ++ (t ++ tail)) hds hdsd hes hesd
    (fun c hc => by
      cases wsp with
      | nil => exact absurd rfl hws
      | cons w ws' =>
        simp only [List.cons_append, List.head?_cons, Option.some.injEq] at hc
        subst hc
        exact ws_not_digit w (hwsall w (by simp)))
    hsubrest_ne t hmw
  refine ⟨?_, ?_, htrim⟩
  · rw [lineToPair_main _ _ _ hmain, htrim]
  · rw [lineToPair_sub _ _ _ (sub_main_none _ _ hsub) hsub, htrim]

/-- Witness for C8: the line `1. Methods [overview]` stores title
`Methods` (bracketed part cut, whitespace trimmed), and the line
`1.2 Methods [overview]` stores the same title under number `1.2`. -/
theorem parse_title_up_to_bracket_witness :
    lineToPair "1. Methods [overview]" = some ("1", "Methods") ∧
    lineToPair "1.2 Methods [overview]" = some ("1.2", "Methods") := by
  have h := parse_title_up_to_bracket ['1'] ['2'] [' '] "Methods".data
    (' ' :: '[' :: "overview]".data)
    (by decide) (by decide) (by decide) (by decide) (by decide) (by decide)
    (by decide) (by decide) (by decide) (by decide)
    (Or.inr ⟨[' '], "overview]".data, rfl, by decide, by decide⟩)
  refine ⟨?_, ?_⟩
  · have h1 := h.1
    rw [show String.mk (['1'] ++ '.' :: ([' '] ++ ("Methods".data ++ (' ' :: '[' :: "overview]".data))))
        = "1. Methods [overview]" by decide] at h1
    exact h1
  · have h2 := h.2.1
    rw [show String.mk (['1'] ++ '.' :: (['2'] ++ ([' '] ++ ("Methods".data ++ (' ' :: '[' :: "overview]".data)))))
        = "1.2 Methods [overview]" by decide] at h2
    exact h2

/-! ## C9: the Markdown export / re-parse round-trip

The exporter (`utils/download.ts`) writes `## N. T` lines for sections
and `### n t` lines for subsections.  The lemmas below compute the
line structure of the exported document and re-run the outline parser
on the stripped heading lines. -/

theorem splitNl_cons (c : Char) (rest : List Char) :
    splitNl (c :: rest) =
      if c = '\n' then [] :: splitNl rest
      else
        match splitNl rest with
        | [] => [[c]]
        | l :: ls => (c :: l) :: ls := rfl

theorem splitNl_ne_nil (cs : List Char) : splitNl cs ≠ [] := by
  induction cs with
  | nil => simp [splitNl]
  | cons c rest ih =>
    rw [splitNl_cons]
    by_cases hc : c = '\n'
    · simp [hc]
    · rw [if_neg hc]
      cases h : splitNl rest <;> simp

theorem splitNl_append (xs rest : List Char) :
    splitNl (xs ++ '\n' :: rest) = splitNl xs ++ splitNl rest := by
  induction xs with
  | nil => simp [splitNl_cons, splitNl]
  | cons c cs ih =>
    rw [List.cons_append, splitNl_cons, splitNl_cons c cs, ih]
    by_cases hc : c = '\n'
    · rw [if_pos hc, if_pos hc]; rfl
    · rw [if_neg hc, if_neg hc]
      cases h : splitNl cs with
      | nil => exact absurd h (splitNl_ne_nil cs)
      | cons l ls => simp

theorem splitNl_no_nl (xs : List Char) (h : '\n' ∉ xs) : splitNl xs = [xs] := by
  induction xs with
  | nil => rfl
  | cons c cs ih =>
    rw [splitNl_cons, if_neg (by intro hh; exact h (hh ▸ List.mem_cons_self c cs)),
      ih (fun hm => h (List.mem_cons_of_mem c hm))]

theorem join_data (l : List String) : (String.join l).data = l.flatMap String.data := by
  simp [List.flatMap_def]

theorem join_intersperse_nl (x : String) (xs : List String) :
    (String.join (List.intersperse "\n" (x :: xs))).data
      = x.data ++ xs.flatMap (fun y => '\n' :: y.data) := by
  induction xs generalizing x with
  | nil => simp [join_data]
  | cons y ys ih =>
    have ihy := ih y
    rw [join_data] at ihy
    rw [List.intersperse_cons_cons, join_data]
    simp only [List.flatMap_cons]
    rw [ihy]
    simp

theorem stripHeading_nil : stripHeading [] = none := rfl

theorem stripHeading_hash1 (t : List Char) : stripHeading ('#' :: ' ' :: t) = none := by
  rw [stripHeading]
  rw [if_neg (by intro h; injection h with h1 h2; injection h2 with h3 h4; exact absurd h3 (by decide)),
    if_neg (by intro h; injection h with h1 h2; injection h2 with h3 h4; exact absurd h3 (by decide))]

theorem stripHeading_sec (t : List Char) :
    stripHeading ('#' :: '#' :: ' ' :: t) = some (String.mk t) := by
  rw [stripHeading]
  rw [if_neg (by intro h; injection h with h1 h2; injection h2 with h3 h4; injection h4 with h5 h6; exact absurd h5 (by decide))]
  rw [if_pos (by rfl)]
  rfl

theorem stripHeading_subsec (t : List Char) :
    stripHeading ('#' :: '#' :: '#' :: ' ' :: t) = some (String.mk t) := by
  rw [stripHeading, if_pos (by rfl)]
  rfl

theorem strData_append (a b : String) : (a ++ b).data = a.data ++ b.data := rfl

theorem filterMap_splitNl_none (cs : List Char)
    (h : ∀ l ∈ splitNl cs, stripHeading l = none) :
    (splitNl cs).filterMap stripHeading = [] :=
  List.filterMap_eq_nil_iff.mpr h

theorem digits_no_nl (ds : List Char) (h : ∀ c ∈ ds, c.isDigit = true) : '\n' ∉ ds :=
  fun hm => absurd (h '\n' hm) (by decide)

theorem splitNl_cons_nl (xs : List Char) : splitNl ('\n' :: xs) = [] :: splitNl xs := by
  rw [splitNl_cons, if_pos rfl]


theorem headL_subsMd (subs : List Subsection) (rest : List Char)
    (h : ∀ sub ∈ subs, '\n' ∉ sub.number.data ∧ '\n' ∉ sub.title.data ∧ ContentOk sub.content) :
    (splitNl ((subs.map subsectionMd).flatMap String.data ++ rest)).filterMap stripHeading
      = subs.map (fun sub => String.mk (sub.number.data ++ ' ' :: sub.title.data))
          ++ (splitNl rest).filterMap stripHeading := by
  induction subs with
  | nil => simp
  | cons sub subs' ih =>
    obtain ⟨hn, ht, hc⟩ := h sub (by simp)
    have hdata : (subsectionMd sub).data
        = '#' :: '#' :: '#' :: ' ' :: (sub.number.data ++ ' ' :: (sub.title.data ++ '\n' :: (sub.content.data ++ ['\n','\n']))) := by
      simp only [subsectionMd, strData_append, List.append_assoc]
      rfl
    have hnl : '\n' ∉ ('#' :: '#' :: '#' :: ' ' :: (sub.number.data ++ ' ' :: sub.title.data)) := by
      intro hm
      simp only [List.mem_cons, List.mem_append] at hm
      rcases hm with h1|h1|h1|h1|h1|h1|h1
      · exact absurd h1 (by decide)
      · exact absurd h1 (by decide)
      · exact absurd h1 (by decide)
      · exact absurd h1 (by decide)
      · exact hn h1
      · exact absurd h1 (by decide)
      · exact ht h1
    have hsplit : (subsectionMd sub).data ++ ((subs'.map subsectionMd).flatMap String.data ++ rest)
        = ('#' :: '#' :: '#' :: ' ' :: (sub.number.data ++ ' ' :: sub.title.data)) ++ '\n' ::
            (sub.content.data ++ '\n' :: '\n' :: ((subs'.map subsectionMd).flatMap String.data ++ rest)) := by
      rw [hdata]
      simp [List.append_assoc]
    simp only [List.map_cons, List.flatMap_cons, List.append_assoc]
    rw [hsplit, splitNl_append, List.filterMap_append]
    rw [splitNl_no_nl _ hnl]
    rw [splitNl_append, List.filterMap_append, filterMap_splitNl_none _ hc]
    rw [splitNl_cons_nl]
    simp only [List.filterMap_cons, stripHeading_nil, stripHeading_subsec]
    rw [ih (fun s hs => h s (by simp [hs]))]
    simp

theorem headL_sectionMd (s : ResearchSection) (rest : List Char)
    (hn : '\n' ∉ s.number.data) (ht : '\n' ∉ s.title.data) (hc : ContentOk s.content)
    (hsubs : ∀ sub ∈ s.subsections, '\n' ∉ sub.number.data ∧ '\n' ∉ sub.title.data ∧ ContentOk sub.content) :
    (splitNl ((sectionMd s).data ++ rest)).filterMap stripHeading
      = secHeadLines s ++ (splitNl rest).filterMap stripHeading := by
  have hnl : '\n' ∉ ('#' :: '#' :: ' ' :: (s.number.data ++ '.' :: ' ' :: s.title.data)) := by
    intro hm
    simp only [List.mem_cons, List.mem_append] at hm
    rcases hm with h1|h1|h1|h1|h1|h1|h1
    · exact absurd h1 (by decide)
    · exact absurd h1 (by decide)
    · exact absurd h1 (by decide)
    · exact hn h1
    · exact absurd h1 (by decide)
    · exact absurd h1 (by decide)
    · exact ht h1
  by_cases hce : s.content = ""
  · have hsplit : (sectionMd s).data ++ rest
        = ('#' :: '#' :: ' ' :: (s.number.data ++ '.' :: ' ' :: s.title.data)) ++ '\n' ::
            ('\n' :: ((s.subsections.map subsectionMd).flatMap String.data ++ rest)) := by
      rw [sectionMd, if_pos hce]
      simp only [strData_append, join_data, List.append_assoc]
      simp
    rw [hsplit, splitNl_append, List.filterMap_append, splitNl_no_nl _ hnl, splitNl_cons_nl]
    simp only [List.filterMap_cons, stripHeading_sec, stripHeading_nil]
    rw [headL_subsMd s.subsections rest hsubs]
    simp [secHeadLines]
  · have hsplit : (sectionMd s).data ++ rest
        = ('#' :: '#' :: ' ' :: (s.number.data ++ '.' :: ' ' :: s.title.data)) ++ '\n' ::
            (s.content.data ++ '\n' ::
              ('\n' :: ((s.subsections.map subsectionMd).flatMap String.data ++ rest))) := by
      rw [sectionMd, if_neg hce]
      simp only [strData_append, join_data, List.append_assoc]
      simp
    rw [hsplit, splitNl_append, List.filterMap_append, splitNl_no_nl _ hnl]
    rw [splitNl_append, List.filterMap_append, filterMap_splitNl_none _ hc, splitNl_cons_nl]
    simp only [List.filterMap_cons, stripHeading_sec, stripHeading_nil]
    rw [headL_subsMd s.subsections rest hsubs]
    simp [secHeadLines]

theorem sectionOk_no_nl (s : ResearchSection) (h : SectionOk s) :
    '\n' ∉ s.number.data ∧ '\n' ∉ s.title.data ∧ ContentOk s.content ∧
      ∀ sub ∈ s.subsections, '\n' ∉ sub.number.data ∧ '\n' ∉ sub.title.data ∧ ContentOk sub.content := by
  obtain ⟨⟨hne, hdig⟩, htOk, hcOk, hsubs⟩ := h
  refine ⟨digits_no_nl _ hdig, htOk.2.2.1, hcOk, ?_⟩
  intro sub hsub
  obtain ⟨⟨ds, es, hnd, _, _, hd1, hd2⟩, hsubT, hsubC⟩ := hsubs sub hsub
  refine ⟨?_, hsubT.2.2.1, hsubC⟩
  rw [hnd]
  intro hm
  simp only [List.mem_append, List.mem_cons] at hm
  rcases hm with h1|h1|h1
  · exact digits_no_nl ds hd1 h1
  · exact absurd h1 (by decide)
  · exact digits_no_nl es hd2 h1

theorem headL_sectionsMd (ss : List ResearchSection) (hss : ∀ s ∈ ss, SectionOk s) :
    (splitNl ((ss.map sectionMd).flatMap (fun y => '\n' :: y.data))).filterMap stripHeading
      = ss.flatMap secHeadLines := by
  induction ss with
  | nil => simp [splitNl, stripHeading_nil]
  | cons s ss' ih =>
    obtain ⟨hn, ht, hc, hsubs⟩ := sectionOk_no_nl s (hss s (by simp))
    simp only [List.map_cons, List.flatMap_cons, List.append_assoc]
    rw [List.cons_append, splitNl_cons_nl]
    simp only [List.filterMap_cons, stripHeading_nil]
    rw [headL_sectionMd s _ hn ht hc hsubs, ih (fun x hx => hss x (by simp [hx]))]

theorem headingLines_doc (title : String) (sections : List ResearchSection)
    (hT : '\n' ∉ title.data) (hsec : ∀ s ∈ sections, SectionOk s) :
    headingLines (downloadMarkdownContent title sections) = sections.flatMap secHeadLines := by
  have hnl : '\n' ∉ ('#' :: ' ' :: title.data) := by
    intro hm
    simp only [List.mem_cons] at hm
    rcases hm with h1|h1|h1
    · exact absurd h1 (by decide)
    · exact absurd h1 (by decide)
    · exact hT h1
  rw [headingLines, downloadMarkdownContent, join_intersperse_nl]
  have hsplit : ("# " ++ title ++ "\n\n").data
        ++ (sections.map sectionMd).flatMap (fun y => '\n' :: y.data)
      = ('#' :: ' ' :: title.data) ++ '\n' ::
          ('\n' :: (sections.map sectionMd).flatMap (fun y => '\n' :: y.data)) := by
    simp only [strData_append, List.append_assoc]
    simp
  rw [hsplit, splitNl_append, List.filterMap_append, splitNl_no_nl _ hnl, splitNl_cons_nl]
  simp only [List.filterMap_cons, stripHeading_hash1, stripHeading_nil]
  rw [headL_sectionsMd sections hsec]
  simp

theorem mainSectionMatch_mainHead (s : ResearchSection)
    (hN : NumOk s.number) (hT : TitleOk s.title) :
    mainSectionMatch (String.mk (s.number.data ++ '.' :: ' ' :: s.title.data))
      = some (s.number, s.title) := by
  obtain ⟨hne, hdig⟩ := hN
  obtain ⟨htne, hnb, hnl, hth, htl⟩ := hT
  have hts : titleSplit s.title.data = some s.title.data := by
    have h := titleSplit_stop s.title.data [] htne hnb htl (Or.inl rfl)
    simpa using h
  have hmw : matchTitleAfterWs (' ' :: s.title.data) = some s.title.data := by
    have h := matchTitleAfterWs_pos [' '] s.title.data s.title.data (by decide)
      (by intro c hc; simp at hc; rw [hc]; decide) hth htne hts
    exact h
  exact mainSectionMatch_make s.number.data (' ' :: s.title.data) hne hdig s.title.data hmw

theorem lineToPair_mainHead (s : ResearchSection)
    (hN : NumOk s.number) (hT : TitleOk s.title) :
    lineToPair (String.mk (s.number.data ++ '.' :: ' ' :: s.title.data))
      = some (s.number, s.title) := by
  rw [lineToPair_main _ _ _ (mainSectionMatch_mainHead s hN hT)]
  rw [show strTrim s.title = s.title from by
    rw [strTrim, trimChars_eq_self s.title.data hT.2.2.2.1 hT.2.2.2.2]]

theorem subSectionMatch_subHead (sub : Subsection)
    (hn : SubNumOk sub.number) (hT : TitleOk sub.title) :
    subSectionMatch (String.mk (sub.number.data ++ ' ' :: sub.title.data))
      = some (sub.number, sub.title) := by
  obtain ⟨ds, es, hnd, hds, hes, hd1, hd2⟩ := hn
  obtain ⟨htne, hnb, hnl, hth, htl⟩ := hT
  have hts : titleSplit sub.title.data = some sub.title.data := by
    have h := titleSplit_stop sub.title.data [] htne hnb htl (Or.inl rfl)
    simpa using h
  have hmw : matchTitleAfterWs (' ' :: sub.title.data) = some sub.title.data := by
    have h := matchTitleAfterWs_pos [' '] sub.title.data sub.title.data (by decide)
      (by intro c hc; simp at hc; rw [hc]; decide) hth htne hts
    exact h
  have h := subSectionMatch_make ds es (' ' :: sub.title.data) hds hd1 hes hd2
    (by intro c hc; simp only [List.head?_cons, Option.some.injEq] at hc; rw [← hc]; decide)
    (by simp) sub.title.data hmw
  rw [hnd, show (ds ++ '.' :: es) ++ (' ' :: sub.title.data)
      = ds ++ '.' :: (es ++ ' ' :: sub.title.data) from by simp, h]
  rw [show String.mk (ds ++ '.' :: es) = sub.number from by rw [← hnd]]

theorem lineToPair_subHead (sub : Subsection)
    (hn : SubNumOk sub.number) (hT : TitleOk sub.title) :
    lineToPair (String.mk (sub.number.data ++ ' ' :: sub.title.data))
      = some (sub.number, sub.title) := by
  have hs := subSectionMatch_subHead sub hn hT
  rw [lineToPair_sub _ _ _ (sub_main_none _ _ hs) hs]
  rw [show strTrim sub.title = sub.title from by
    rw [strTrim, trimChars_eq_self sub.title.data hT.2.2.2.1 hT.2.2.2.2]]

theorem subHead_pairs (subs : List Subsection)
    (h : ∀ sub ∈ subs, SubNumOk sub.number ∧ TitleOk sub.title ∧ ContentOk sub.content) :
    (subs.map (fun sub => String.mk (sub.number.data ++ ' ' :: sub.title.data))).filterMap lineToPair
      = subs.map (fun sub => (sub.number, sub.title)) := by
  induction subs with
  | nil => rfl
  | cons sub subs' ih =>
    obtain ⟨hn, ht, _⟩ := h sub (by simp)
    simp only [List.map_cons, List.filterMap_cons, lineToPair_subHead sub hn ht]
    rw [ih (fun x hx => h x (by simp [hx]))]

theorem secHeadLines_pairs (ss : List ResearchSection) (h : ∀ s ∈ ss, SectionOk s) :
    (ss.flatMap secHeadLines).filterMap lineToPair = flattenPairs ss := by
  induction ss with
  | nil => simp [flattenPairs]
  | cons s ss' ih =>
    obtain ⟨hN, hT, _, hsubs⟩ := h s (by simp)
    simp only [List.flatMap_cons, secHeadLines, List.cons_append, List.filterMap_cons,
      lineToPair_mainHead s hN hT, List.filterMap_append]
    rw [subHead_pairs s.subsections hsubs, ih (fun x hx => h x (by simp [hx]))]
    simp [flattenPairs]

/-- **C9 (amended).**  For every section tree whose numbers and titles
are of the shapes the outline parser itself produces (`NumOk` /
`SubNumOk` / `TitleOk`) and whose body text contains no line that reads
as one of the exporter's headings, exporting to Markdown and re-parsing
the heading lines *with their `## ` / `### ` markers stripped off*
(`reparseHeadings`) recovers exactly the original tree's
`(number, title)` sequence in order; re-parsing the raw document (no
marker stripping) instead yields the empty tree (see the
counterexample). -/
theorem export_reparse_headings_roundtrip (title : String) (sections : List ResearchSection)
    (hT : '\n' ∉ title.data) (hsec : ∀ s ∈ sections, SectionOk s) :
    flattenPairs (reparseHeadings (downloadMarkdownContent title sections))
      = flattenPairs sections := by
  rw [reparseHeadings, headingLines_doc title sections hT hsec, parseLoop_eq_blocksWithOpen]
  show flattenPairs (parseBlocks _) = _
  rw [flattenPairs_parseBlocks _ ?hmatch ?hfirst, secHeadLines_pairs sections hsec]
  case hmatch =>
    intro l hl
    simp only [List.mem_flatMap] at hl
    obtain ⟨s, hs, hl⟩ := hl
    obtain ⟨hN, hTi, _, hsubs⟩ := hsec s hs
    rw [secHeadLines] at hl
    rcases List.mem_cons.mp hl with h1 | h1
    · rw [h1, lineToPair_mainHead s hN hTi]; rfl
    · simp only [List.mem_map] at h1
      obtain ⟨sub, hsub, h1⟩ := h1
      obtain ⟨hsn, hst, _⟩ := hsubs sub hsub
      rw [← h1, lineToPair_subHead sub hsn hst]; rfl
  case hfirst =>
    intro l hl
    cases sections with
    | nil => simp at hl
    | cons s ss' =>
      obtain ⟨hN, hTi, _, _⟩ := hsec s (by simp)
      simp only [List.flatMap_cons, secHeadLines, List.cons_append, List.head?_cons,
        Option.some.injEq] at hl
      rw [← hl, mainSectionMatch_mainHead s hN hTi]
      rfl

/-- **C9, counterexample.**  The Markdown export writes `## 1. Intro`
for a section; fed back *unstripped* to the outline parser, no line of
the document matches a section pattern (every heading starts with `#`),
so re-parsing the export of the one-section tree `1. Intro` yields the
empty tree, not the original `(number, title)` sequence. -/
theorem export_reparse_raw_fails :
    parseOutlineSections (downloadMarkdownContent "T" [⟨"1", "Intro", "", []⟩]) = [] ∧
    flattenPairs [(⟨"1", "Intro", "", []⟩ : ResearchSection)] = [("1", "Intro")] ∧
    ([] : List (String × String)) ≠ [("1", "Intro")] :=
  ⟨by decide, by decide, by decide⟩

/-- Witness for C9: a two-section tree with one subsection and body
text round-trips through the Markdown export and the heading re-parse,
recovering `1 Intro, 1.1 Background, 2 Methods`. -/
theorem export_reparse_headings_roundtrip_witness :
    flattenPairs (reparseHeadings (downloadMarkdownContent "My Paper"
        [⟨"1", "Intro", "Some text.", [⟨"1.1", "Background", "More text."⟩]⟩,
         ⟨"2", "Methods", "", []⟩]))
      = flattenPairs
          [⟨"1", "Intro", "Some text.", [⟨"1.1", "Background", "More text."⟩]⟩,
           ⟨"2", "Methods", "", []⟩] ∧
    flattenPairs
        [(⟨"1", "Intro", "Some text.", [⟨"1.1", "Background", "More text."⟩]⟩ : ResearchSection),
         ⟨"2", "Methods", "", []⟩]
      = [("1", "Intro"), ("1.1", "Background"), ("2", "Methods")] := by
  refine ⟨export_reparse_headings_roundtrip _ _ (by decide) ?_, by decide⟩
  intro s hs
  simp only [List.mem_cons, List.not_mem_nil, or_false] at hs
  rcases hs with rfl | rfl
  · refine ⟨⟨by decide, by decide⟩, ⟨by decide, by decide, by decide, by decide, by decide⟩,
      by unfold ContentOk; decide, ?_⟩
    intro sub hsub
    simp only [List.mem_cons, List.not_mem_nil, or_false] at hsub
    subst hsub
    exact ⟨⟨['1'], ['1'], by decide, by decide, by decide, by decide, by decide⟩,
      ⟨by decide, by decide, by decide, by decide, by decide⟩,
      by unfold ContentOk; decide⟩
  · refine ⟨⟨by decide, by decide⟩, ⟨by decide, by decide, by decide, by decide, by decide⟩,
      by unfold ContentOk; decide, ?_⟩
    intro sub hsub
    simp at hsub

end AiResearcher
